import Mathlib

/-!
# Verification of the `ProcessingBook` signature index

Shallow embedding of `src/A2/processing_book.py` (class `ProcessingBook`):
a character-indexed trie mapping fixed-alphabet string keys ("signatures")
to values, with conflict counting on duplicate inserts, deletion with
structural compaction, and in-order traversal.

Modelling conventions, justified against the Python source:

* A node (`Book`) holds a list of 36 slots (`pages`, one per character of
  `LEGAL_CHARACTERS`), an `errors` conflict counter and a `len` entry
  counter (both `Int`, like Python ints).  A slot is `empty` (Python
  `None`), `leaf k v` (Python tuple `(transaction, value)`) or
  `book child` (a nested `ProcessingBook`).
* The Python `self.level` field is set at construction to parent level + 1
  and never changes; operations read only their own node's level.  The
  embedding therefore passes the level `ℓ` as an explicit argument,
  recursing with `ℓ+1` exactly where Python constructs or enters a child.
* Keys model `Transaction` objects: an opaque identity (`id`) plus the
  `signature` character sequence; equality is structural on both, which
  subsumes the identity equality of `Transaction` and the
  signature-equality of the test double in the source.
* The mutating methods `__setitem__` / `__delitem__` are embedded as
  functions returning `Book V × Option Err`: the state after the call
  together with the exception raised, if any.  The returned state mirrors
  the Python mutation order: a step that raises after a child was mutated
  in place re-links exactly that child (aliasing), and a freshly created
  child book is linked into the parent slot only after both recursive
  inserts into it succeeded.
* Errors: `keyTooShort` models the explicit `ValueError` raised by
  `__setitem__` for a too-short signature and the `IndexError` raised by
  `signature[self.level]` in `__getitem__`/`__delitem__`; `invalidSymbol`
  models the `ValueError` raised by `str.index` in `page_index`;
  `notFound` models `KeyError`; `internalFault` models the `TypeError`
  from indexing the page array with `None` on the (unreachable)
  no-survivor path of `__delitem__`.
-/

namespace ProcessingBook

/-- `LEGAL_CHARACTERS = "abcdefghijklmnopqrstuvwxyz0123456789"`. -/
def legalCharacters : List Char :=
  "abcdefghijklmnopqrstuvwxyz0123456789".toList

/-- Position of the first occurrence of `c` in `l` (Python `str.index`,
with `none` for the `ValueError` case). -/
def indexInList (c : Char) : List Char → Option Nat
  | [] => none
  | d :: rest => if d = c then some 0 else (indexInList c rest).map (· + 1)

/-- `ProcessingBook.page_index`: `LEGAL_CHARACTERS.index(character)`. -/
def pageIndex (c : Char) : Option Nat :=
  indexInList c legalCharacters

/-- A key: a `Transaction` as seen by the book — an opaque identity and a
`signature` character sequence, compared structurally. -/
structure Key where
  id : Nat
  sig : List Char
deriving DecidableEq, Repr

/-- The exceptions the book's operations can raise (see module docstring). -/
inductive Err where
  | keyTooShort
  | invalidSymbol
  | notFound
  | internalFault
deriving DecidableEq, Repr

mutual
/-- One page of a book: Python `None`, a `(transaction, value)` tuple, or a
nested `ProcessingBook`. -/
inductive Slot (V : Type) : Type where
  | empty : Slot V
  | leaf : Key → V → Slot V
  | book : Book V → Slot V

/-- A `ProcessingBook`: the `pages` array (36 slots), the `errors` conflict
counter and the private `__length` entry counter. -/
inductive Book (V : Type) : Type where
  | mk : List (Slot V) → Int → Int → Book V
end

variable {V : Type}

/-- The `pages` array. -/
def Book.pages : Book V → List (Slot V)
  | .mk p _ _ => p

/-- The `errors` conflict counter. -/
def Book.errors : Book V → Int
  | .mk _ e _ => e

/-- The private `__length` entry counter (`__len__`). -/
def Book.len : Book V → Int
  | .mk _ _ n => n

/-- `ProcessingBook.__init__`: 36 empty pages, zero counters. -/
def emptyBook : Book V :=
  .mk (List.replicate 36 .empty) 0 0

mutual
/-- Pairs yielded by `return_in_order` from one slot. -/
def slotList : Slot V → List (Key × V)
  | .empty => []
  | .leaf k v => [(k, v)]
  | .book b => bookList b

/-- Pairs yielded by `return_in_order` from a list of pages, in order. -/
def pagesList : List (Slot V) → List (Key × V)
  | [] => []
  | s :: rest => slotList s ++ pagesList rest

/-- `_ProcessingBookIterator.return_in_order`: the in-order sequence of all
`(key, value)` pairs reachable from `b`. -/
def bookList : Book V → List (Key × V)
  | .mk pages _ _ => pagesList pages
end

/-- `ProcessingBook.__getitem__` at level `ℓ`. -/
def get (b : Book V) (ℓ : Nat) (k : Key) : Except Err V :=
  if h : ℓ < k.sig.length then
    match pageIndex (k.sig.getD ℓ ' ') with
    | none => .error .invalidSymbol
    | some idx =>
      match b.pages.getD idx .empty with
      | .empty => .error .notFound
      | .leaf k2 v2 => if k2 = k then .ok v2 else .error .notFound
      | .book child => get child (ℓ + 1) k
  else
    .error .keyTooShort
termination_by k.sig.length - ℓ
decreasing_by omega

/-- `__setitem__` on a freshly constructed empty book (the first insert into
`new_book` in the collision branch): the addressed slot is necessarily
empty, so the insert either fails its preconditions or stores a leaf. -/
def insertFresh (ℓ : Nat) (k : Key) (v : V) : Except Err (Book V) :=
  if ℓ < k.sig.length then
    match pageIndex (k.sig.getD ℓ ' ') with
    | none => .error .invalidSymbol
    | some idx => .ok (.mk ((List.replicate 36 (Slot.empty (V := V))).set idx (.leaf k v)) 0 1)
  else
    .error .keyTooShort

/-- `ProcessingBook.__setitem__` at level `ℓ`: returns the state after the
call and the exception raised, if any (see module docstring). -/
def set [DecidableEq V] (b : Book V) (ℓ : Nat) (k : Key) (v : V) :
    Book V × Option Err :=
  if h : ℓ < k.sig.length then
    match pageIndex (k.sig.getD ℓ ' ') with
    | none => (b, some .invalidSymbol)
    | some idx =>
      match b.pages.getD idx .empty with
      | .empty =>
        (.mk (b.pages.set idx (.leaf k v)) b.errors (b.len + 1), none)
      | .leaf k2 v2 =>
        if k2 = k then
          if v2 = v then (b, none)
          else (.mk b.pages (b.errors + 1) b.len, none)
        else
          match insertFresh (ℓ + 1) k2 v2 with
          | .error e => (b, some e)
          | .ok nb1 =>
            match set nb1 (ℓ + 1) k v with
            | (_, some e) => (b, some e)
            | (nb2, none) =>
              (.mk (b.pages.set idx (.book nb2)) b.errors (b.len + 1), none)
      | .book child =>
        match set child (ℓ + 1) k v with
        | (child2, some e) =>
          (.mk (b.pages.set idx (.book child2)) b.errors b.len, some e)
        | (child2, none) =>
          (.mk (b.pages.set idx (.book child2)) b.errors
            (if child.len < child2.len then b.len + 1 else b.len), none)
  else
    (b, some .keyTooShort)
termination_by k.sig.length - ℓ
decreasing_by all_goals omega

/-- The index of the first non-`None` page, scanning from `i`
(the `for i, subpage in enumerate(page.pages)` loop of `__delitem__` and
`collapse_to_tuple`). -/
def findFirstNonEmpty (i : Nat) : List (Slot V) → Option Nat
  | [] => none
  | .empty :: rest => findFirstNonEmpty (i + 1) rest
  | _ :: _ => some i

/-- The `remaining_index` / `deeper_index` computation: index of the first
non-`None` page of `b`. -/
def findRemaining (b : Book V) : Option Nat :=
  findFirstNonEmpty 0 b.pages

/-- `ProcessingBook.collapse_to_tuple`.  `.ok (some (k, v))` is Python
returning the tuple, `.ok none` is Python falling through and returning
`None`, and `.error .internalFault` is the crash from `self.pages[None]`
when `remaining_index` is `None`. -/
def collapse (b : Book V) (ridx : Option Nat) : Except Err (Option (Key × V)) :=
  match ridx with
  | none => .error .internalFault
  | some i =>
    match hs : b.pages.getD i .empty with
    | .empty => .ok none
    | .leaf k v => .ok (some (k, v))
    | .book b2 => collapse b2 (findRemaining b2)
termination_by sizeOf b
decreasing_by
  have hmem : Slot.book b2 ∈ b.pages := by
    by_cases hi : i < b.pages.length
    · rw [List.getD_eq_getElem _ _ hi] at hs
      exact hs ▸ List.getElem_mem hi
    · rw [List.getD_eq_default _ _ (by omega)] at hs
      exact absurd hs (by simp)
  have h1 : sizeOf (Slot.book b2) < sizeOf b.pages := List.sizeOf_lt_of_mem hmem
  cases b with
  | mk pages e n =>
    simp only [Book.pages] at h1
    simp only [Slot.book.sizeOf_spec] at h1
    simp only [Book.mk.sizeOf_spec]
    omega

/-- `ProcessingBook.__delitem__` at level `ℓ`: returns the state after the
call and the exception raised, if any (see module docstring). -/
def delete (b : Book V) (ℓ : Nat) (k : Key) : Book V × Option Err :=
  if h : ℓ < k.sig.length then
    match pageIndex (k.sig.getD ℓ ' ') with
    | none => (b, some .invalidSymbol)
    | some idx =>
      match b.pages.getD idx .empty with
      | .empty => (b, some .notFound)
      | .leaf k2 _ =>
        if k2 = k then
          (.mk (b.pages.set idx .empty) b.errors (b.len - 1), none)
        else
          (b, some .notFound)
      | .book child =>
        match delete child (ℓ + 1) k with
        | (child2, some e) =>
          (.mk (b.pages.set idx (.book child2)) b.errors b.len, some e)
        | (child2, none) =>
          let newLen := if child2.len < child.len then b.len - 1 else b.len
          if child2.len = 0 then
            (.mk (b.pages.set idx .empty) b.errors newLen, none)
          else if child2.len = 1 then
            match collapse child2 (findRemaining child2) with
            | .error e =>
              (.mk (b.pages.set idx (.book child2)) b.errors newLen, some e)
            | .ok none =>
              (.mk (b.pages.set idx .empty) b.errors newLen, none)
            | .ok (some (k0, v0)) =>
              (.mk (b.pages.set idx (.leaf k0 v0)) b.errors newLen, none)
          else
            (.mk (b.pages.set idx (.book child2)) b.errors newLen, none)
  else
    (b, some .keyTooShort)
termination_by k.sig.length - ℓ
decreasing_by omega

/-! ## Invariants and derived notions -/

mutual
/-- Checks `P` at every reachable book below (and including) the given slot. -/
def slotAll (P : Book V → Bool) : Slot V → Bool
  | .empty => true
  | .leaf _ _ => true
  | .book b2 => bookAll P b2

/-- Checks `P` at every reachable book below a list of pages. -/
def pagesAll (P : Book V → Bool) : List (Slot V) → Bool
  | [] => true
  | s :: rest => slotAll P s && pagesAll P rest

/-- Checks `P` at every reachable book, the given one included. -/
def bookAll (P : Book V → Bool) : Book V → Bool
  | .mk pages e n => P (.mk pages e n) && pagesAll P pages
end

/-- Counter consistency at a single node: the stored `__length` counter
equals the number of leaf pairs reachable under the node. -/
def counterOKHere (b : Book V) : Bool :=
  b.len = ((bookList b).length : Int)

/-- Counter consistency at every reachable node (claim C9). -/
def countersOK (b : Book V) : Bool :=
  bookAll counterOKHere b

/-- Canonical form at a single node: every directly nested book holds at
least two reachable entries. -/
def canonicalHere (b : Book V) : Bool :=
  b.pages.all fun s =>
    match s with
    | .book b2 => 2 ≤ (bookList b2).length
    | _ => true

/-- Canonical form (claim C3): no reachable nested node holds exactly 0 or
1 reachable entries. -/
def canonical (b : Book V) : Bool :=
  bookAll canonicalHere b

/-- Weak well-formedness used by the collapse analysis: every reachable
nested book holds at least one entry. -/
def noDeadBranch (b : Book V) : Bool :=
  bookAll (fun b0 => b0.pages.all fun s =>
    match s with
    | .book b2 => 1 ≤ (bookList b2).length
    | _ => true) b

mutual
/-- Full well-formedness of one slot of a book at level `ℓ`, slot index
`i`: a leaf's key has a signature long enough for this level whose level-`ℓ`
character indexes to this slot; a nested book is well-formed one level
deeper, holds at least two entries, and every key reachable under it also
addresses this slot at level `ℓ`. -/
def slotInv (ℓ i : Nat) : Slot V → Bool
  | .empty => true
  | .leaf k _ =>
      decide (ℓ < k.sig.length) && decide (pageIndex (k.sig.getD ℓ ' ') = some i)
  | .book b2 =>
      bookInv (ℓ + 1) b2 &&
      decide (2 ≤ (bookList b2).length) &&
      (bookList b2).all (fun p =>
        decide (ℓ < p.1.sig.length) &&
        decide (pageIndex (p.1.sig.getD ℓ ' ') = some i))

/-- `slotInv` for each page in a list, with slot indices counted from `i`. -/
def pagesInv (ℓ i : Nat) : List (Slot V) → Bool
  | [] => true
  | s :: rest => slotInv ℓ i s && pagesInv ℓ (i + 1) rest

/-- Full well-formedness of a book acting at level `ℓ`: 36 pages, a
consistent entry counter, and well-formed slots. -/
def bookInv (ℓ : Nat) : Book V → Bool
  | .mk pages _ n =>
      decide (pages.length = 36) &&
      decide (n = ((pagesList pages).length : Int)) &&
      pagesInv ℓ 0 pages
end

/-- One public operation on the container (which delegates to the root
node with level 0); `getOp` is read-only. -/
inductive Op (V : Type) where
  | setOp (k : Key) (v : V)
  | delOp (k : Key)
  | getOp (k : Key)

/-- The state after one public operation on the container. -/
def applyOp [DecidableEq V] (b : Book V) : Op V → Book V
  | .setOp k v => (set b 0 k v).1
  | .delOp k => (delete b 0 k).1
  | .getOp _ => b

/-- The state after a sequence of public operations starting from a fresh
container. -/
def run [DecidableEq V] (ops : List (Op V)) : Book V :=
  ops.foldl applyOp emptyBook

/-- Modelled from the spec (§8, conflict recording): the book with the
conflict counter of exactly the node whose leaf holds `k` incremented by
one, and nothing else changed.  Used to state claim C1 as a refinement. -/
def conflictBumpSpec (b : Book V) (ℓ : Nat) (k : Key) : Book V :=
  if ℓ < k.sig.length then
    match pageIndex (k.sig.getD ℓ ' ') with
    | none => b
    | some idx =>
      match b.pages.getD idx .empty with
      | .empty => b
      | .leaf k2 _ =>
        if k2 = k then .mk b.pages (b.errors + 1) b.len else b
      | .book child =>
        .mk (b.pages.set idx (.book (conflictBumpSpec child (ℓ + 1) k)))
          b.errors b.len
  else
    b
termination_by k.sig.length - ℓ
decreasing_by omega

/-- The signature of a key mapped to alphabet slot indices (characters
outside the alphabet map to the out-of-range value 36). -/
def idxSeq (k : Key) : List Nat :=
  k.sig.map (fun c => (pageIndex c).getD 36)

/-- The traversal order of claim C4: strict lexicographic comparison of the
alphabet-index sequences of two signatures, from position `ℓ` on. -/
def sigLt (ℓ : Nat) (k1 k2 : Key) : Prop :=
  List.Lex (· < ·) ((idxSeq k1).drop ℓ) ((idxSeq k2).drop ℓ)

/-- The navigation of `__getitem__` / `__delitem__`: probing for `k` from
node `b` at depth `ℓ` descends through nested books, one signature
character per level.  `Descends k b ℓ b' ℓ'` holds when the probe passes
through node `b'` at depth `ℓ'`. -/
inductive Descends (k : Key) : Book V → Nat → Book V → Nat → Prop where
  | refl (b : Book V) (ℓ : Nat) : Descends k b ℓ b ℓ
  | step {b b' : Book V} {ℓ ℓ' idx : Nat} {child : Book V}
      (hℓ : ℓ < k.sig.length)
      (hpi : pageIndex (k.sig.getD ℓ ' ') = some idx)
      (hslot : b.pages.getD idx Slot.empty = Slot.book child)
      (h : Descends k child (ℓ + 1) b' ℓ') : Descends k b ℓ b' ℓ'

/-- Navigation for `k` from `(b, ℓ)` reaches a node whose depth exhausts
the signature: at that node `signature[self.level]` raises `IndexError`. -/
def reachesExhausted (b : Book V) (ℓ : Nat) (k : Key) : Prop :=
  ∃ b' ℓ', Descends k b ℓ b' ℓ' ∧ k.sig.length ≤ ℓ'

/-- Navigation reaches a node whose probed signature character lies outside
the alphabet: there `LEGAL_CHARACTERS.index` raises `ValueError`. -/
def reachesIllegal (b : Book V) (ℓ : Nat) (k : Key) : Prop :=
  ∃ b' ℓ', Descends k b ℓ b' ℓ' ∧ ℓ' < k.sig.length ∧
    pageIndex (k.sig.getD ℓ' ' ') = none

/-- Navigation ends at an empty slot, or at a leaf holding a different
key: the conditions under which `KeyError` is raised. -/
def reachesEmptyOrMismatch (b : Book V) (ℓ : Nat) (k : Key) : Prop :=
  ∃ b' ℓ' idx, Descends k b ℓ b' ℓ' ∧ ℓ' < k.sig.length ∧
    pageIndex (k.sig.getD ℓ' ' ') = some idx ∧
    (b'.pages.getD idx Slot.empty = Slot.empty ∨
      ∃ k2 v2, b'.pages.getD idx Slot.empty = Slot.leaf k2 v2 ∧ k2 ≠ k)

/-! ## Basic lemmas about `pageIndex` -/

theorem indexInList_lt_length {c : Char} {l : List Char} {i : Nat}
    (h : indexInList c l = some i) : i < l.length := by
  induction l generalizing i with
  | nil => simp [indexInList] at h
  | cons d rest ih =>
    simp only [indexInList] at h
    split at h
    · cases h
      simp
    · cases hrec : indexInList c rest with
      | none => rw [hrec] at h; simp at h
      | some j =>
        rw [hrec] at h
        simp at h
        have := ih hrec
        simp only [List.length_cons]
        omega

theorem indexInList_getD {c : Char} {l : List Char} {i : Nat}
    (h : indexInList c l = some i) : l.getD i ' ' = c := by
  induction l generalizing i with
  | nil => simp [indexInList] at h
  | cons d rest ih =>
    simp only [indexInList] at h
    split at h
    · cases h
      simpa using by assumption
    · cases hrec : indexInList c rest with
      | none => rw [hrec] at h; simp at h
      | some j =>
        rw [hrec] at h
        simp at h
        obtain rfl : i = j + 1 := by omega
        simpa using ih hrec

theorem pageIndex_lt_36 {c : Char} {i : Nat} (h : pageIndex c = some i) :
    i < 36 := by
  have := indexInList_lt_length h
  simpa [legalCharacters] using this

theorem pageIndex_inj {c1 c2 : Char} {i : Nat}
    (h1 : pageIndex c1 = some i) (h2 : pageIndex c2 = some i) : c1 = c2 := by
  have e1 := indexInList_getD h1
  have e2 := indexInList_getD h2
  rw [← e1, ← e2]

/-! ## Lemmas about `pagesList` (the traversal) -/

theorem pagesList_append (l1 l2 : List (Slot V)) :
    pagesList (l1 ++ l2) = pagesList l1 ++ pagesList l2 := by
  induction l1 with
  | nil => simp [pagesList]
  | cons s rest ih => simp [pagesList, ih]

theorem pagesList_split {l : List (Slot V)} {i : Nat} (hi : i < l.length) :
    pagesList l =
      pagesList (l.take i) ++ slotList (l.getD i .empty) ++
        pagesList (l.drop (i + 1)) := by
  conv_lhs => rw [← List.take_append_drop i l, List.drop_eq_getElem_cons hi]
  rw [pagesList_append, List.getD_eq_getElem _ _ hi]
  simp [pagesList]

theorem pagesList_set {l : List (Slot V)} {i : Nat} (hi : i < l.length)
    (s : Slot V) :
    pagesList (l.set i s) =
      pagesList (l.take i) ++ slotList s ++ pagesList (l.drop (i + 1)) := by
  rw [List.set_eq_take_cons_drop _ hi, pagesList_append]
  simp [pagesList]

theorem mem_pagesList {p : Key × V} {l : List (Slot V)} :
    p ∈ pagesList l ↔ ∃ s ∈ l, p ∈ slotList s := by
  induction l with
  | nil => simp [pagesList]
  | cons s rest ih =>
    simp only [pagesList, List.mem_append, ih, List.mem_cons]
    constructor
    · rintro (hp | ⟨s2, hs2, hp⟩)
      · exact ⟨s, Or.inl rfl, hp⟩
      · exact ⟨s2, Or.inr hs2, hp⟩
    · rintro ⟨s2, hs2 | hs2, hp⟩
      · exact Or.inl (hs2 ▸ hp)
      · exact Or.inr ⟨s2, hs2, hp⟩

theorem bookList_def (pages : List (Slot V)) (e n : Int) :
    bookList (Book.mk pages e n) = pagesList pages := rfl

/-! ## Lemmas about the invariant predicates -/

theorem pagesInv_iff {ℓ j : Nat} {l : List (Slot V)} :
    pagesInv ℓ j l = true ↔
      ∀ i, i < l.length → slotInv ℓ (j + i) (l.getD i .empty) = true := by
  induction l generalizing j with
  | nil => simp [pagesInv]
  | cons s rest ih =>
    simp only [pagesInv, Bool.and_eq_true]
    constructor
    · rintro ⟨h1, h2⟩ i hi
      cases i with
      | zero => simpa using h1
      | succ m =>
        have hm : m < rest.length := by
          simpa [Nat.succ_lt_succ_iff] using hi
        have := (ih (j := j + 1)).1 h2 m hm
        have harith : j + 1 + m = j + (m + 1) := by omega
        rw [harith] at this
        simpa using this
    · intro h
      refine ⟨by simpa using h 0 (by simp), (ih (j := j + 1)).2 ?_⟩
      intro m hm
      have := h (m + 1) (by simpa [Nat.succ_lt_succ_iff] using hm)
      have harith : j + (m + 1) = j + 1 + m := by omega
      rw [harith] at this
      simpa using this

theorem pagesInv_zero_iff {ℓ : Nat} {l : List (Slot V)} :
    pagesInv ℓ 0 l = true ↔
      ∀ i, i < l.length → slotInv ℓ i (l.getD i .empty) = true := by
  rw [pagesInv_iff]
  constructor
  · intro h i hi
    simpa [Nat.zero_add] using h i hi
  · intro h i hi
    simpa [Nat.zero_add] using h i hi

theorem bookInv_iff {ℓ : Nat} {b : Book V} :
    bookInv ℓ b = true ↔
      b.pages.length = 36 ∧ b.len = ((bookList b).length : Int) ∧
        pagesInv ℓ 0 b.pages = true := by
  cases b with
  | mk pages e n =>
    simp [bookInv, Book.pages, Book.len, bookList, Bool.and_eq_true,
      and_assoc]

theorem bookInv_slot {ℓ : Nat} {b : Book V} (h : bookInv ℓ b = true)
    {i : Nat} (hi : i < 36) :
    slotInv ℓ i (b.pages.getD i .empty) = true := by
  obtain ⟨hlen, _, hpg⟩ := bookInv_iff.1 h
  have := pagesInv_iff.1 hpg i (by omega)
  simpa using this

theorem emptyBook_pagesInv (ℓ j : Nat) (n : Nat) :
    pagesInv (V := V) ℓ j (List.replicate n Slot.empty) = true := by
  induction n generalizing j with
  | zero => simp [pagesInv]
  | succ m ih => simp [List.replicate_succ, pagesInv, slotInv, ih]

theorem pagesList_replicate_empty (n : Nat) :
    pagesList (List.replicate n (Slot.empty (V := V))) = [] := by
  induction n with
  | zero => simp [pagesList]
  | succ m ih => simp [List.replicate_succ, pagesList, slotList, ih]

theorem emptyBook_bookInv (ℓ : Nat) : bookInv ℓ (emptyBook (V := V)) = true := by
  rw [bookInv_iff]
  refine ⟨by simp [emptyBook, Book.pages], ?_, ?_⟩
  · show (0 : Int) = ((bookList (emptyBook (V := V))).length : Int)
    rw [emptyBook, bookList_def, pagesList_replicate_empty 36]
    rfl
  · simpa [emptyBook, Book.pages] using emptyBook_pagesInv (V := V) ℓ 0 36

theorem Book.eta (b : Book V) : Book.mk b.pages b.errors b.len = b := by
  cases b
  rfl

theorem set_self_of_getD {l : List (Slot V)} {i : Nat} {s : Slot V}
    (h : l.getD i .empty = s) : l.set i s = l := by
  by_cases hi : i < l.length
  · apply List.ext_getElem (by simp)
    intro j h1 h2
    rw [List.getElem_set]
    split
    · next heq =>
      subst heq
      rw [List.getD_eq_getElem _ _ hi] at h
      exact h.symm
    · rfl
  · exact List.set_eq_of_length_le (by omega)

/-! ## Failed `set` calls change nothing (claim C10) -/

theorem set_error_eq [DecidableEq V] {b : Book V} {ℓ : Nat} {k : Key} {v : V}
    {b' : Book V} {e : Err} (h : set b ℓ k v = (b', some e)) :
    b' = b ∧ (e = .keyTooShort ∨ e = .invalidSymbol) := by
  induction b, ℓ, k, v using set.induct generalizing b' e with
  | case1 b ℓ k v hℓ hpi =>
    rw [set.eq_def] at h
    simp only [dif_pos hℓ, hpi] at h
    cases h
    exact ⟨rfl, Or.inr rfl⟩
  | case2 b ℓ k v hℓ idx hpi hslot =>
    rw [set.eq_def] at h
    simp only [dif_pos hℓ, hpi, hslot] at h
    simp at h
  | case3 b ℓ idx k v hslot hℓ hpi =>
    rw [set.eq_def] at h
    simp only [dif_pos hℓ, hpi, hslot] at h
    simp only [if_true] at h
    simp at h
  | case4 b ℓ v idx k v1 hslot hne hℓ hpi =>
    rw [set.eq_def] at h
    simp only [dif_pos hℓ, hpi, hslot] at h
    simp only [if_true, if_neg hne] at h
    simp at h
  | case5 b ℓ k v hℓ idx hpi k1 v1 hslot hne e0 hfresh =>
    rw [set.eq_def] at h
    simp only [dif_pos hℓ, hpi, hslot, if_neg hne, hfresh] at h
    simp only [Prod.mk.injEq, Option.some.injEq] at h
    obtain ⟨h1, h2⟩ := h
    subst h1
    subst h2
    refine ⟨rfl, ?_⟩
    simp only [insertFresh] at hfresh
    split at hfresh
    · split at hfresh
      · cases hfresh
        exact Or.inr rfl
      · cases hfresh
    · cases hfresh
      exact Or.inl rfl
  | case6 b ℓ k v hℓ idx hpi k1 v1 hslot hne nb1 hfresh fst e0 hrec ih =>
    rw [set.eq_def] at h
    simp only [dif_pos hℓ, hpi, hslot, if_neg hne, hfresh, hrec] at h
    simp only [Prod.mk.injEq, Option.some.injEq] at h
    obtain ⟨h1, h2⟩ := h
    subst h1
    subst h2
    exact ⟨rfl, (ih hrec).2⟩
  | case7 b ℓ k v hℓ idx hpi k1 v1 hslot hne nb1 hfresh nb2 hrec ih =>
    rw [set.eq_def] at h
    simp only [dif_pos hℓ, hpi, hslot, if_neg hne, hfresh, hrec] at h
    simp at h
  | case8 b ℓ k v hℓ idx hpi child hslot fst e0 hrec ih =>
    rw [set.eq_def] at h
    simp only [dif_pos hℓ, hpi, hslot, hrec] at h
    simp only [Prod.mk.injEq, Option.some.injEq] at h
    obtain ⟨h1, h2⟩ := h
    subst h2
    obtain ⟨rfl, he⟩ := ih hrec
    rw [set_self_of_getD hslot, Book.eta] at h1
    exact ⟨h1.symm, he⟩
  | case9 b ℓ k v hℓ idx hpi child hslot nb2 hrec ih =>
    rw [set.eq_def] at h
    simp only [dif_pos hℓ, hpi, hslot, hrec] at h
    simp at h
  | case10 b ℓ k v hℓ =>
    rw [set.eq_def] at h
    simp only [dif_neg hℓ] at h
    cases h
    exact ⟨rfl, Or.inl rfl⟩

/-! ## Pointwise lemmas about updated page arrays -/

theorem getD_set_eq {l : List (Slot V)} {i : Nat} (hi : i < l.length)
    (s : Slot V) : (l.set i s).getD i .empty = s := by
  rw [List.getD_eq_getElem _ _ (by simpa using hi)]
  simp [List.getElem_set]

theorem getD_set_ne {l : List (Slot V)} {i j : Nat} (hne : i ≠ j)
    (s : Slot V) : (l.set i s).getD j .empty = l.getD j .empty := by
  by_cases hj : j < l.length
  · rw [List.getD_eq_getElem _ _ (by simpa using hj),
      List.getD_eq_getElem _ _ hj, List.getElem_set]
    simp [hne]
  · rw [List.getD_eq_default _ _ (by simpa using hj),
      List.getD_eq_default _ _ (by omega)]

/-- `__getitem__` reads only the page array, never the counters. -/
theorem get_pages_eq {b1 b2 : Book V} (hp : b1.pages = b2.pages) (ℓ : Nat)
    (k : Key) : get b1 ℓ k = get b2 ℓ k := by
  rw [get.eq_def, get.eq_def, hp]

/-! ## Too-short keys fail immediately with no mutation (claim C8) -/

theorem get_keyTooShort {b : Book V} {ℓ : Nat} {k : Key}
    (h : k.sig.length ≤ ℓ) : get b ℓ k = .error .keyTooShort := by
  rw [get.eq_def, dif_neg (by omega)]

theorem set_keyTooShort [DecidableEq V] {b : Book V} {ℓ : Nat} {k : Key}
    (v : V) (h : k.sig.length ≤ ℓ) : set b ℓ k v = (b, some .keyTooShort) := by
  rw [set.eq_def, dif_neg (by omega)]

theorem delete_keyTooShort {b : Book V} {ℓ : Nat} {k : Key}
    (h : k.sig.length ≤ ℓ) : delete b ℓ k = (b, some .keyTooShort) := by
  rw [delete.eq_def, dif_neg (by omega)]

/-! ## Re-inserting a stored pair is a no-op (claim C7) -/

theorem set_stored_noop [DecidableEq V] {b : Book V} {ℓ : Nat} {k : Key}
    {w : V} (h : get b ℓ k = .ok w) : set b ℓ k w = (b, none) := by
  induction b, ℓ, k using get.induct (V := V) with
  | case1 b ℓ k hℓ hpi =>
    rw [get.eq_def, dif_pos hℓ] at h
    simp only [hpi] at h
    exact absurd h (by simp)
  | case2 b ℓ k hℓ idx hpi hslot =>
    rw [get.eq_def, dif_pos hℓ] at h
    simp only [hpi, hslot] at h
    exact absurd h (by simp)
  | case3 b ℓ idx k v hslot hℓ hpi =>
    rw [get.eq_def, dif_pos hℓ] at h
    simp only [hpi, hslot, if_true] at h
    injection h with hv
    subst hv
    rw [set.eq_def, dif_pos hℓ]
    simp only [hpi, hslot, if_true]
  | case4 b ℓ k hℓ idx hpi k2 v2 hslot hne =>
    rw [get.eq_def, dif_pos hℓ] at h
    simp only [hpi, hslot, if_neg hne] at h
    exact absurd h (by simp)
  | case5 b ℓ k hℓ idx hpi child hslot ih =>
    rw [get.eq_def, dif_pos hℓ] at h
    simp only [hpi, hslot] at h
    have hrec := ih h
    rw [set.eq_def, dif_pos hℓ]
    simp only [hpi, hslot, hrec]
    rw [if_neg (by omega), set_self_of_getD hslot, Book.eta]
  | case6 b ℓ k hℓ =>
    rw [get.eq_def, dif_neg hℓ] at h
    exact absurd h (by simp)

/-! ## Conflicting re-inserts only bump one conflict counter (claim C1) -/

theorem getD_content_lt_length {l : List (Slot V)} {i : Nat} {s : Slot V}
    (h : l.getD i .empty = s) (hs : s ≠ .empty) : i < l.length := by
  by_contra hi
  rw [List.getD_eq_default _ _ (by omega)] at h
  exact hs h.symm

theorem conflictBump_len (b : Book V) (ℓ : Nat) (k : Key) :
    (conflictBumpSpec b ℓ k).len = b.len := by
  induction b, ℓ, k using conflictBumpSpec.induct with
  | case1 b ℓ k hℓ hpi =>
    rw [conflictBumpSpec.eq_def, if_pos hℓ]
    simp only [hpi]
  | case2 b ℓ k hℓ idx hpi hslot =>
    rw [conflictBumpSpec.eq_def, if_pos hℓ]
    simp only [hpi, hslot]
  | case3 b ℓ idx k v hslot hℓ hpi =>
    rw [conflictBumpSpec.eq_def, if_pos hℓ]
    simp only [hpi, hslot, if_true]
    rfl
  | case4 b ℓ k hℓ idx hpi k2 v2 hslot hne =>
    rw [conflictBumpSpec.eq_def, if_pos hℓ]
    simp only [hpi, hslot, if_neg hne]
  | case5 b ℓ k hℓ idx hpi child hslot ih =>
    rw [conflictBumpSpec.eq_def, if_pos hℓ]
    simp only [hpi, hslot]
    rfl
  | case6 b ℓ k hℓ =>
    rw [conflictBumpSpec.eq_def, if_neg hℓ]

theorem conflictBump_errors_root {b : Book V} {ℓ : Nat} {k : Key} {idx : Nat}
    {k2 : Key} {v2 : V} (hℓ : ℓ < k.sig.length)
    (hpi : pageIndex (k.sig.getD ℓ ' ') = some idx)
    (hslot : b.pages.getD idx .empty = .leaf k2 v2) (heq : k2 = k) :
    (conflictBumpSpec b ℓ k).errors = b.errors + 1 := by
  rw [conflictBumpSpec.eq_def, if_pos hℓ]
  simp only [hpi, hslot, if_pos heq]
  rfl

theorem conflictBump_errors_deep {b : Book V} {ℓ : Nat} {k : Key} {idx : Nat}
    {child : Book V} (hℓ : ℓ < k.sig.length)
    (hpi : pageIndex (k.sig.getD ℓ ' ') = some idx)
    (hslot : b.pages.getD idx .empty = .book child) :
    (conflictBumpSpec b ℓ k).errors = b.errors ∧
      (conflictBumpSpec b ℓ k).pages.getD idx .empty =
        .book (conflictBumpSpec child (ℓ + 1) k) := by
  have hidx : idx < b.pages.length := getD_content_lt_length hslot (by simp)
  rw [conflictBumpSpec.eq_def, if_pos hℓ]
  simp only [hpi, hslot]
  exact ⟨rfl, getD_set_eq hidx _⟩

theorem conflictBump_bookList (b : Book V) (ℓ : Nat) (k : Key) :
    bookList (conflictBumpSpec b ℓ k) = bookList b := by
  induction b, ℓ, k using conflictBumpSpec.induct with
  | case1 b ℓ k hℓ hpi =>
    rw [conflictBumpSpec.eq_def, if_pos hℓ]
    simp only [hpi]
  | case2 b ℓ k hℓ idx hpi hslot =>
    rw [conflictBumpSpec.eq_def, if_pos hℓ]
    simp only [hpi, hslot]
  | case3 b ℓ idx k v hslot hℓ hpi =>
    rw [conflictBumpSpec.eq_def, if_pos hℓ]
    simp only [hpi, hslot, if_true]
    cases b
    rfl
  | case4 b ℓ k hℓ idx hpi k2 v2 hslot hne =>
    rw [conflictBumpSpec.eq_def, if_pos hℓ]
    simp only [hpi, hslot, if_neg hne]
  | case5 b ℓ k hℓ idx hpi child hslot ih =>
    have hidx : idx < b.pages.length := getD_content_lt_length hslot (by simp)
    rw [conflictBumpSpec.eq_def, if_pos hℓ]
    simp only [hpi, hslot]
    show pagesList (b.pages.set idx (.book (conflictBumpSpec child (ℓ + 1) k))) = bookList b
    rw [pagesList_set hidx]
    have hsplit := pagesList_split (V := V) hidx
    rw [hslot] at hsplit
    show _ ++ slotList (Slot.book (conflictBumpSpec child (ℓ + 1) k)) ++ _ = _
    rw [show slotList (Slot.book (conflictBumpSpec child (ℓ + 1) k)) =
        bookList (conflictBumpSpec child (ℓ + 1) k) from rfl, ih]
    conv_rhs => rw [show bookList b = pagesList b.pages from by cases b; rfl, hsplit]
    rfl
  | case6 b ℓ k hℓ =>
    rw [conflictBumpSpec.eq_def, if_neg hℓ]

theorem get_conflictBump (b : Book V) (ℓ : Nat) (k : Key) :
    ∀ k2, get (conflictBumpSpec b ℓ k) ℓ k2 = get b ℓ k2 := by
  induction b, ℓ, k using conflictBumpSpec.induct with
  | case1 b ℓ k hℓ hpi =>
    rw [conflictBumpSpec.eq_def, if_pos hℓ]
    simp only [hpi]
    exact fun k2 => trivial
  | case2 b ℓ k hℓ idx hpi hslot =>
    rw [conflictBumpSpec.eq_def, if_pos hℓ]
    simp only [hpi, hslot]
    exact fun k2 => trivial
  | case3 b ℓ idx k v hslot hℓ hpi =>
    rw [conflictBumpSpec.eq_def, if_pos hℓ]
    simp only [hpi, hslot, if_true]
    exact fun k2 =>
      @get_pages_eq V (Book.mk b.pages (b.errors + 1) b.len) b rfl ℓ k2
  | case4 b ℓ k hℓ idx hpi k2 v2 hslot hne =>
    rw [conflictBumpSpec.eq_def, if_pos hℓ]
    simp only [hpi, hslot, if_neg hne]
    exact fun k2 => trivial
  | case5 b ℓ k hℓ idx hpi child hslot ih =>
    intro k2
    have hidx : idx < b.pages.length := getD_content_lt_length hslot (by simp)
    have hcb : conflictBumpSpec b ℓ k =
        Book.mk (b.pages.set idx (.book (conflictBumpSpec child (ℓ + 1) k)))
          b.errors b.len := by
      rw [conflictBumpSpec.eq_def, if_pos hℓ]
      simp only [hpi, hslot]
    rw [hcb, get.eq_def, get.eq_def]
    by_cases h2 : ℓ < k2.sig.length
    · rw [dif_pos h2, dif_pos h2]
      cases hpi2 : pageIndex (k2.sig.getD ℓ ' ') with
      | none => rfl
      | some j =>
        simp only
        by_cases hij : j = idx
        · subst hij
          show (match ((b.pages.set j (Slot.book (conflictBumpSpec child (ℓ + 1) k))).getD j .empty : Slot V) with
            | .empty => Except.error Err.notFound
            | .leaf k3 v3 => if k3 = k2 then .ok v3 else .error .notFound
            | .book c => get c (ℓ + 1) k2) = _
          rw [getD_set_eq hidx, hslot]
          exact ih k2
        · show (match ((b.pages.set idx (Slot.book (conflictBumpSpec child (ℓ + 1) k))).getD j .empty : Slot V) with
            | .empty => Except.error Err.notFound
            | .leaf k3 v3 => if k3 = k2 then .ok v3 else .error .notFound
            | .book c => get c (ℓ + 1) k2) = _
          rw [getD_set_ne (fun hh => hij hh.symm)]
    · rw [dif_neg h2, dif_neg h2]
  | case6 b ℓ k hℓ =>
    rw [conflictBumpSpec.eq_def, if_neg hℓ]
    exact fun k2 => rfl

theorem set_conflict [DecidableEq V] {b : Book V} {ℓ : Nat} {k : Key}
    {v1 v2 : V} (h : get b ℓ k = .ok v1) (hne : v1 ≠ v2) :
    set b ℓ k v2 = (conflictBumpSpec b ℓ k, none) := by
  induction b, ℓ, k using get.induct (V := V) with
  | case1 b ℓ k hℓ hpi =>
    rw [get.eq_def, dif_pos hℓ] at h
    simp only [hpi] at h
    exact absurd h (by simp)
  | case2 b ℓ k hℓ idx hpi hslot =>
    rw [get.eq_def, dif_pos hℓ] at h
    simp only [hpi, hslot] at h
    exact absurd h (by simp)
  | case3 b ℓ idx k v hslot hℓ hpi =>
    rw [get.eq_def, dif_pos hℓ] at h
    simp only [hpi, hslot, if_true] at h
    injection h with hv
    subst hv
    rw [set.eq_def, dif_pos hℓ]
    simp only [hpi, hslot, if_true, if_neg hne]
    rw [conflictBumpSpec.eq_def, if_pos hℓ]
    simp only [hpi, hslot, if_true]
  | case4 b ℓ k hℓ idx hpi k2 v2x hslot hkne =>
    rw [get.eq_def, dif_pos hℓ] at h
    simp only [hpi, hslot, if_neg hkne] at h
    exact absurd h (by simp)
  | case5 b ℓ k hℓ idx hpi child hslot ih =>
    rw [get.eq_def, dif_pos hℓ] at h
    simp only [hpi, hslot] at h
    have hrec := ih h
    have hcb : conflictBumpSpec b ℓ k =
        Book.mk (b.pages.set idx (.book (conflictBumpSpec child (ℓ + 1) k)))
          b.errors b.len := by
      rw [conflictBumpSpec.eq_def, if_pos hℓ]
      simp only [hpi, hslot]
    rw [set.eq_def, dif_pos hℓ]
    simp only [hpi, hslot, hrec, hcb]
    rw [if_neg (by rw [conflictBump_len]; omega)]
  | case6 b ℓ k hℓ =>
    rw [get.eq_def, dif_neg hℓ] at h
    exact absurd h (by simp)

/-! ## Auxiliary lemmas for the invariant-preservation proofs -/

theorem slotInv_empty_eq (ℓ i : Nat) : slotInv (V := V) ℓ i .empty = true := by
  simp [slotInv]

theorem slotInv_leaf_iff {ℓ i : Nat} {k : Key} {v : V} :
    slotInv ℓ i (.leaf k v) = true ↔
      ℓ < k.sig.length ∧ pageIndex (k.sig.getD ℓ ' ') = some i := by
  simp [slotInv]

theorem slotInv_book_iff {ℓ i : Nat} {b2 : Book V} :
    slotInv ℓ i (.book b2) = true ↔
      bookInv (ℓ + 1) b2 = true ∧ 2 ≤ (bookList b2).length ∧
        ∀ p ∈ bookList b2,
          ℓ < p.1.sig.length ∧ pageIndex (p.1.sig.getD ℓ ' ') = some i := by
  simp [slotInv, List.all_eq_true, and_assoc]

theorem bookList_split {b : Book V} {idx : Nat} (hidx : idx < b.pages.length) :
    bookList b =
      pagesList (b.pages.take idx) ++ slotList (b.pages.getD idx .empty) ++
        pagesList (b.pages.drop (idx + 1)) := by
  cases b
  exact pagesList_split hidx

theorem bookList_set {b : Book V} {idx : Nat} (hidx : idx < b.pages.length)
    (s : Slot V) (e n : Int) :
    bookList (Book.mk (b.pages.set idx s) e n) =
      pagesList (b.pages.take idx) ++ slotList s ++
        pagesList (b.pages.drop (idx + 1)) := by
  rw [bookList_def]
  exact pagesList_set hidx s

theorem mem_pagesList_idx {p : Key × V} {l : List (Slot V)} :
    p ∈ pagesList l ↔ ∃ i, i < l.length ∧ p ∈ slotList (l.getD i .empty) := by
  induction l with
  | nil => simp [pagesList]
  | cons s rest ih =>
    simp only [pagesList, List.mem_append, ih]
    constructor
    · rintro (hp | ⟨i, hi, hp⟩)
      · exact ⟨0, by simp, by simpa using hp⟩
      · exact ⟨i + 1, by simpa [Nat.succ_lt_succ_iff] using hi, by simpa using hp⟩
    · rintro ⟨i, hi, hp⟩
      cases i with
      | zero => exact Or.inl (by simpa using hp)
      | succ m =>
        exact Or.inr ⟨m, by simpa [Nat.succ_lt_succ_iff] using hi, by simpa using hp⟩

theorem mem_slot_pageIndex {ℓ i : Nat} {s : Slot V} (hs : slotInv ℓ i s = true)
    {p : Key × V} (hp : p ∈ slotList s) :
    ℓ < p.1.sig.length ∧ pageIndex (p.1.sig.getD ℓ ' ') = some i := by
  cases s with
  | empty => simp [slotList] at hp
  | leaf k v =>
    simp only [slotList, List.mem_singleton] at hp
    subst hp
    exact slotInv_leaf_iff.1 hs
  | book b2 =>
    exact (slotInv_book_iff.1 hs).2.2 p hp

theorem mem_bookList_localize {ℓ : Nat} {b : Book V} (hinv : bookInv ℓ b = true)
    {p : Key × V} (hp : p ∈ bookList b) :
    ∃ i, i < b.pages.length ∧ pageIndex (p.1.sig.getD ℓ ' ') = some i ∧
      ℓ < p.1.sig.length ∧ p ∈ slotList (b.pages.getD i .empty) := by
  have hp2 : p ∈ pagesList b.pages := by
    cases b
    exact hp
  obtain ⟨i, hi, hps⟩ := mem_pagesList_idx.1 hp2
  have h36 : b.pages.length = 36 := (bookInv_iff.1 hinv).1
  have hs := bookInv_slot hinv (i := i) (by omega)
  obtain ⟨h1, h2⟩ := mem_slot_pageIndex hs hps
  exact ⟨i, hi, h2, h1, hps⟩

theorem not_mem_of_slot_free {ℓ idx : Nat} {b : Book V} {k : Key}
    (hinv : bookInv ℓ b = true)
    (hpi : pageIndex (k.sig.getD ℓ ' ') = some idx)
    (hk : ∀ v0 : V, (k, v0) ∉ slotList (b.pages.getD idx .empty)) :
    k ∉ (bookList b).map Prod.fst := by
  intro hmem
  obtain ⟨p, hp, hfst⟩ := List.mem_map.1 hmem
  obtain ⟨i, _, hpi2, _, hps⟩ := mem_bookList_localize hinv hp
  rw [hfst] at hpi2
  rw [hpi2] at hpi
  cases hpi
  obtain ⟨k0, v0⟩ := p
  cases hfst
  exact hk v0 hps

theorem mem_slot_mem_bookList {b : Book V} {idx : Nat}
    (hidx : idx < b.pages.length) {p : Key × V}
    (hp : p ∈ slotList (b.pages.getD idx .empty)) : p ∈ bookList b := by
  rw [bookList_split hidx]
  simp only [List.mem_append]
  exact Or.inl (Or.inr hp)

theorem getD_replicate_empty (n i : Nat) :
    (List.replicate n (Slot.empty (V := V))).getD i .empty = .empty := by
  by_cases h : i < n
  · rw [List.getD_eq_getElem _ _ (by simpa using h)]
    simp
  · rw [List.getD_eq_default _ _ (by simpa using h)]

theorem insertFresh_spec {ℓ : Nat} {k : Key} {v : V} {nb : Book V}
    (h : insertFresh ℓ k v = .ok nb) :
    bookInv ℓ nb = true ∧ bookList nb = [(k, v)] ∧ nb.len = 1 := by
  rw [insertFresh] at h
  split at h
  · next hℓ =>
    cases hpi : pageIndex (k.sig.getD ℓ ' ') with
    | none => rw [hpi] at h; cases h
    | some idx =>
      rw [hpi] at h
      cases h
      have hidx : idx < 36 := pageIndex_lt_36 hpi
      have hlist : pagesList ((List.replicate 36 (Slot.empty (V := V))).set idx
          (.leaf k v)) = [(k, v)] := by
        rw [pagesList_set (by simpa using hidx)]
        rw [List.take_replicate, List.drop_replicate]
        rw [pagesList_replicate_empty, pagesList_replicate_empty]
        simp [slotList]
      refine ⟨?_, ?_, rfl⟩
      · rw [bookInv_iff]
        refine ⟨?_, ?_, ?_⟩
        · show ((List.replicate 36 (Slot.empty (V := V))).set idx
            (.leaf k v)).length = 36
          rw [List.length_set, List.length_replicate]
        · show (1 : Int) = _
          rw [bookList_def, hlist]
          rfl
        · rw [pagesInv_zero_iff]
          intro i hi
          show slotInv ℓ i (((List.replicate 36 (Slot.empty (V := V))).set idx
            (.leaf k v)).getD i .empty) = true
          by_cases hii : i = idx
          · subst hii
            rw [getD_set_eq (by simpa using hidx)]
            rw [slotInv_leaf_iff]
            exact ⟨hℓ, hpi⟩
          · rw [getD_set_ne (fun hh => hii hh.symm)]
            rw [getD_replicate_empty]
            exact slotInv_empty_eq ℓ i
      · rw [bookList_def, hlist]
  · cases h

theorem bookInv_update {ℓ idx : Nat} {b : Book V} (hinv : bookInv ℓ b = true)
    (hidx : idx < b.pages.length) {s : Slot V} (hs : slotInv ℓ idx s = true)
    {e n : Int} (hn : n = ((pagesList (b.pages.set idx s)).length : Int)) :
    bookInv ℓ (Book.mk (b.pages.set idx s) e n) = true := by
  obtain ⟨h36, hcnt, hpg⟩ := bookInv_iff.1 hinv
  rw [bookInv_iff]
  refine ⟨?_, ?_, ?_⟩
  · show (b.pages.set idx s).length = 36
    rw [List.length_set]
    exact h36
  · exact hn
  · rw [pagesInv_zero_iff] at hpg
    show pagesInv ℓ 0 (b.pages.set idx s) = true
    rw [pagesInv_zero_iff]
    intro i hi
    rw [List.length_set] at hi
    by_cases hii : i = idx
    · subst hii
      rw [getD_set_eq hidx]
      exact hs
    · rw [getD_set_ne (fun hh => hii hh.symm)]
      exact hpg i hi

theorem pagesList_set_length {l : List (Slot V)} {i : Nat} (hi : i < l.length)
    (s : Slot V) :
    ((pagesList (l.set i s)).length : Int) =
      (pagesList l).length + (slotList s).length -
        (slotList (l.getD i .empty)).length := by
  rw [pagesList_set hi]
  conv_rhs => rw [pagesList_split hi]
  simp only [List.length_append]
  push_cast
  ring

theorem mem_bookList_set {b : Book V} {idx : Nat} (hidx : idx < b.pages.length)
    (s : Slot V) (e n : Int) (p : Key × V) :
    p ∈ bookList (Book.mk (b.pages.set idx s) e n) ↔
      p ∈ pagesList (b.pages.take idx) ∨ p ∈ slotList s ∨
        p ∈ pagesList (b.pages.drop (idx + 1)) := by
  rw [bookList_set hidx]
  simp [List.mem_append, or_assoc]

theorem mem_bookList_parts {b : Book V} {idx : Nat}
    (hidx : idx < b.pages.length) (p : Key × V) :
    p ∈ bookList b ↔
      p ∈ pagesList (b.pages.take idx) ∨
        p ∈ slotList (b.pages.getD idx .empty) ∨
        p ∈ pagesList (b.pages.drop (idx + 1)) := by
  rw [bookList_split hidx]
  simp [List.mem_append, or_assoc]

/-! ## The master specification of successful `set` calls -/

theorem set_ok_spec [DecidableEq V] {b : Book V} {ℓ : Nat} {k : Key} {v : V}
    {b' : Book V} (hinv : bookInv ℓ b = true) (h : set b ℓ k v = (b', none)) :
    bookInv ℓ b' = true ∧
      ((k ∉ (bookList b).map Prod.fst ∧ b'.len = b.len + 1 ∧
          (∀ p, p ∈ bookList b' ↔ p ∈ bookList b ∨ p = (k, v))) ∨
       ((∃ v0, (k, v0) ∈ bookList b) ∧ b'.len = b.len ∧
          bookList b' = bookList b)) := by
  induction b, ℓ, k, v using set.induct generalizing b' with
  | case1 b ℓ k v hℓ hpi =>
    rw [set.eq_def, dif_pos hℓ] at h
    simp only [hpi] at h
    exact absurd h (by simp)
  | case2 b ℓ k v hℓ idx hpi hslot =>
    rw [set.eq_def, dif_pos hℓ] at h
    simp only [hpi, hslot] at h
    simp only [Prod.mk.injEq, and_true] at h
    subst h
    have h36 : b.pages.length = 36 := (bookInv_iff.1 hinv).1
    have hidx : idx < b.pages.length := by
      rw [h36]
      exact pageIndex_lt_36 hpi
    have hcnt : b.len = ((bookList b).length : Int) := (bookInv_iff.1 hinv).2.1
    refine ⟨?_, Or.inl ⟨?_, rfl, ?_⟩⟩
    · refine bookInv_update hinv hidx (slotInv_leaf_iff.2 ⟨hℓ, hpi⟩) ?_
      have hbp : bookList b = pagesList b.pages := by cases b; rfl
      rw [pagesList_set_length hidx, hslot, ← hbp]
      rw [bookList_split hidx, hslot] at hcnt ⊢
      simp only [slotList, List.length_append, List.length_nil,
        List.length_cons] at hcnt ⊢
      push_cast at hcnt ⊢
      omega
    · refine not_mem_of_slot_free hinv hpi ?_
      intro v0
      rw [hslot]
      simp [slotList]
    · intro p
      rw [mem_bookList_set hidx, mem_bookList_parts hidx, hslot]
      simp only [slotList, List.mem_singleton, List.not_mem_nil, false_or]
      tauto
  | case3 b ℓ idx k v hslot hℓ hpi =>
    rw [set.eq_def, dif_pos hℓ] at h
    simp only [hpi, hslot, if_true] at h
    simp only [Prod.mk.injEq, and_true] at h
    subst h
    have h36 : b.pages.length = 36 := (bookInv_iff.1 hinv).1
    have hidx : idx < b.pages.length := by
      rw [h36]
      exact pageIndex_lt_36 hpi
    refine ⟨hinv, Or.inr ⟨⟨v, ?_⟩, rfl, rfl⟩⟩
    refine mem_slot_mem_bookList hidx ?_
    rw [hslot]
    simp [slotList]
  | case4 b ℓ v idx k v1 hslot hne hℓ hpi =>
    rw [set.eq_def, dif_pos hℓ] at h
    simp only [hpi, hslot, if_true, if_neg hne] at h
    simp only [Prod.mk.injEq, and_true] at h
    subst h
    have h36 : b.pages.length = 36 := (bookInv_iff.1 hinv).1
    have hidx : idx < b.pages.length := by
      rw [h36]
      exact pageIndex_lt_36 hpi
    have hbl : bookList (Book.mk b.pages (b.errors + 1) b.len) = bookList b := by
      cases b
      rfl
    refine ⟨?_, Or.inr ⟨⟨v1, ?_⟩, rfl, hbl⟩⟩
    · obtain ⟨hx, hy, hz⟩ := bookInv_iff.1 hinv
      rw [bookInv_iff]
      exact ⟨hx, by rw [hbl]; exact hy, hz⟩
    · refine mem_slot_mem_bookList hidx ?_
      rw [hslot]
      simp [slotList]
  | case5 b ℓ k v hℓ idx hpi k1 v1 hslot hne e0 hfresh =>
    rw [set.eq_def, dif_pos hℓ] at h
    simp only [hpi, hslot, if_neg hne, hfresh] at h
    exact absurd h (by simp)
  | case6 b ℓ k v hℓ idx hpi k1 v1 hslot hne nb1 hfresh fst e0 hrec ih =>
    rw [set.eq_def, dif_pos hℓ] at h
    simp only [hpi, hslot, if_neg hne, hfresh, hrec] at h
    exact absurd h (by simp)
  | case7 b ℓ k v hℓ idx hpi k1 v1 hslot hne nb1 hfresh nb2 hrec ih =>
    rw [set.eq_def, dif_pos hℓ] at h
    simp only [hpi, hslot, if_neg hne, hfresh, hrec] at h
    simp only [Prod.mk.injEq, and_true] at h
    subst h
    have h36 : b.pages.length = 36 := (bookInv_iff.1 hinv).1
    have hidx : idx < b.pages.length := by
      rw [h36]
      exact pageIndex_lt_36 hpi
    have hcnt : b.len = ((bookList b).length : Int) := (bookInv_iff.1 hinv).2.1
    obtain ⟨hi1, hl1, hn1⟩ := insertFresh_spec hfresh
    obtain ⟨hinv2, hcase⟩ := ih hi1 hrec
    have hAB := hcase.resolve_right (by
      rintro ⟨⟨v0, hv0⟩, -, -⟩
      rw [hl1] at hv0
      simp only [List.mem_singleton, Prod.mk.injEq] at hv0
      exact hne (hv0.1.symm))
    obtain ⟨hknot, hlen2, hmem2⟩ := hAB
    have hcnt2 : nb2.len = ((bookList nb2).length : Int) := (bookInv_iff.1 hinv2).2.1
    have hlen2' : (bookList nb2).length = 2 := by
      rw [hlen2, hn1] at hcnt2
      omega
    have hold : slotInv ℓ idx (b.pages.getD idx .empty) = true :=
      bookInv_slot hinv (by omega)
    rw [hslot] at hold
    obtain ⟨hk1len, hk1pi⟩ := slotInv_leaf_iff.1 hold
    refine ⟨?_, Or.inl ⟨?_, rfl, ?_⟩⟩
    · refine bookInv_update hinv hidx ?_ ?_
      · rw [slotInv_book_iff]
        refine ⟨hinv2, by omega, ?_⟩
        intro p hp
        rcases (hmem2 p).1 hp with hp1 | hp1
        · rw [hl1] at hp1
          simp only [List.mem_singleton] at hp1
          subst hp1
          exact ⟨hk1len, hk1pi⟩
        · subst hp1
          exact ⟨hℓ, hpi⟩
      · have hbp : bookList b = pagesList b.pages := by cases b; rfl
        rw [pagesList_set_length hidx, hslot, ← hbp]
        rw [bookList_split hidx, hslot] at hcnt ⊢
        simp only [slotList, List.length_append, List.length_cons,
          List.length_nil] at hcnt ⊢
        rw [show (bookList nb2).length = 2 from hlen2']
        push_cast at hcnt ⊢
        omega
    · refine not_mem_of_slot_free hinv hpi ?_
      intro v0
      rw [hslot]
      simp only [slotList, List.mem_singleton, Prod.mk.injEq]
      rintro ⟨hk, -⟩
      exact hne hk.symm
    · intro p
      rw [mem_bookList_set hidx, mem_bookList_parts hidx, hslot]
      have hm := hmem2 p
      rw [hl1] at hm
      show _ ↔ (_ ∨ p ∈ slotList (Slot.leaf k1 v1) ∨ _) ∨ _
      rw [show (p ∈ slotList (Slot.book nb2)) = (p ∈ bookList nb2) from rfl] at *
      rw [hm]
      simp only [slotList, List.mem_singleton]
      tauto
  | case8 b ℓ k v hℓ idx hpi child hslot fst e0 hrec ih =>
    rw [set.eq_def, dif_pos hℓ] at h
    simp only [hpi, hslot, hrec] at h
    exact absurd h (by simp)
  | case9 b ℓ k v hℓ idx hpi child hslot nb2 hrec ih =>
    rw [set.eq_def, dif_pos hℓ] at h
    simp only [hpi, hslot, hrec] at h
    simp only [Prod.mk.injEq, and_true] at h
    subst h
    have h36 : b.pages.length = 36 := (bookInv_iff.1 hinv).1
    have hidx : idx < b.pages.length := by
      rw [h36]
      exact pageIndex_lt_36 hpi
    have hcnt : b.len = ((bookList b).length : Int) := (bookInv_iff.1 hinv).2.1
    have hold : slotInv ℓ idx (b.pages.getD idx .empty) = true :=
      bookInv_slot hinv (by omega)
    rw [hslot] at hold
    obtain ⟨hinvc, h2c, hmemc⟩ := slotInv_book_iff.1 hold
    obtain ⟨hinv2, hcase⟩ := ih hinvc hrec
    have hcntc : child.len = ((bookList child).length : Int) :=
      (bookInv_iff.1 hinvc).2.1
    have hcnt2 : nb2.len = ((bookList nb2).length : Int) := (bookInv_iff.1 hinv2).2.1
    rcases hcase with ⟨hknotc, hlen2, hmem2⟩ | ⟨⟨v0, hv0⟩, hlen2, hlist2⟩
    · -- new key went into the child
      have hlt : child.len < nb2.len := by omega
      rw [if_pos hlt]
      refine ⟨?_, Or.inl ⟨?_, rfl, ?_⟩⟩
      · refine bookInv_update hinv hidx ?_ ?_
        · rw [slotInv_book_iff]
          refine ⟨hinv2, by omega, ?_⟩
          intro p hp
          rcases (hmem2 p).1 hp with hp1 | hp1
          · exact hmemc p hp1
          · subst hp1
            exact ⟨hℓ, hpi⟩
        · have hbp : bookList b = pagesList b.pages := by cases b; rfl
          rw [pagesList_set_length hidx, hslot, ← hbp]
          rw [bookList_split hidx, hslot] at hcnt ⊢
          simp only [slotList, List.length_append] at hcnt ⊢
          have hL2 : (bookList nb2).length = (bookList child).length + 1 := by omega
          push_cast at hcnt ⊢
          omega
      · refine not_mem_of_slot_free hinv hpi ?_
        intro v0 hv0
        rw [hslot] at hv0
        exact hknotc (List.mem_map.2 ⟨(k, v0), hv0, rfl⟩)
      · intro p
        rw [mem_bookList_set hidx, mem_bookList_parts hidx, hslot]
        have hm := hmem2 p
        rw [show (p ∈ slotList (Slot.book nb2)) = (p ∈ bookList nb2) from rfl,
          show (p ∈ slotList (Slot.book child)) = (p ∈ bookList child) from rfl, hm]
        tauto
    · -- existing key: the child is unchanged as a list
      have hnlt : ¬child.len < nb2.len := by omega
      rw [if_neg hnlt]
      refine ⟨?_, Or.inr ⟨⟨v0, ?_⟩, rfl, ?_⟩⟩
      · refine bookInv_update hinv hidx ?_ ?_
        · rw [slotInv_book_iff]
          refine ⟨hinv2, by rw [hlist2]; exact h2c, ?_⟩
          intro p hp
          rw [hlist2] at hp
          exact hmemc p hp
        · have hbp : bookList b = pagesList b.pages := by cases b; rfl
          rw [pagesList_set_length hidx, hslot, ← hbp]
          rw [bookList_split hidx, hslot] at hcnt ⊢
          simp only [slotList, List.length_append] at hcnt ⊢
          rw [hlist2]
          push_cast at hcnt ⊢
          omega
      · exact mem_slot_mem_bookList hidx (by rw [hslot]; exact hv0)
      · rw [bookList_set hidx, bookList_split hidx, hslot]
        rw [show slotList (Slot.book nb2) = bookList nb2 from rfl, hlist2]
        rfl
  | case10 b ℓ k v hℓ =>
    rw [set.eq_def, dif_neg hℓ] at h
    exact absurd h (by simp)

/-! ## Keys in other slots differ from the navigated key -/

theorem getD_take {l : List (Slot V)} {n m : Nat} (hm : m < n) :
    (l.take n).getD m .empty = l.getD m .empty := by
  by_cases hml : m < l.length
  · rw [List.getD_eq_getElem _ _ (by simp; omega), List.getD_eq_getElem _ _ hml]
    exact List.getElem_take _
  · rw [List.getD_eq_default _ _ (by simp; omega),
      List.getD_eq_default _ _ (by omega)]

theorem getD_drop {l : List (Slot V)} {n m : Nat} :
    (l.drop n).getD m .empty = l.getD (n + m) .empty := by
  by_cases hml : n + m < l.length
  · rw [List.getD_eq_getElem _ _ (by simp; omega),
      List.getD_eq_getElem _ _ hml]
    exact List.getElem_drop _
  · rw [List.getD_eq_default _ _ (by simp; omega),
      List.getD_eq_default _ _ (by omega)]

theorem other_slot_key_ne {ℓ idx : Nat} {b : Book V}
    (hinv : bookInv ℓ b = true) {k : Key}
    (hpi : pageIndex (k.sig.getD ℓ ' ') = some idx) {p : Key × V}
    (hp : p ∈ pagesList (b.pages.take idx) ∨
      p ∈ pagesList (b.pages.drop (idx + 1))) :
    p.1 ≠ k := by
  have h36 : b.pages.length = 36 := (bookInv_iff.1 hinv).1
  obtain ⟨i, hilt, hpi2⟩ : ∃ i, i ≠ idx ∧
      pageIndex (p.1.sig.getD ℓ ' ') = some i := by
    rcases hp with hp | hp
    · obtain ⟨m, hm, hps⟩ := mem_pagesList_idx.1 hp
      rw [List.length_take] at hm
      have hmidx : m < idx := by omega
      rw [getD_take hmidx] at hps
      have hs := bookInv_slot hinv (i := m) (by omega)
      exact ⟨m, by omega, (mem_slot_pageIndex hs hps).2⟩
    · obtain ⟨m, hm, hps⟩ := mem_pagesList_idx.1 hp
      rw [List.length_drop] at hm
      rw [getD_drop] at hps
      have hs := bookInv_slot hinv (i := idx + 1 + m) (by omega)
      exact ⟨idx + 1 + m, by omega, (mem_slot_pageIndex hs hps).2⟩
  intro hk
  rw [hk, hpi] at hpi2
  cases hpi2
  exact hilt rfl

/-! ## Characterization of `findFirstNonEmpty` and `collapse` -/

theorem ffne_characterize (l : List (Slot V)) (i : Nat) :
    (findFirstNonEmpty i l = none ∧ pagesList l = []) ∨
      (∃ j s, findFirstNonEmpty i l = some (i + j) ∧ j < l.length ∧
        l.getD j .empty = s ∧ s ≠ .empty ∧
        pagesList l = slotList s ++ pagesList (l.drop (j + 1))) := by
  induction l generalizing i with
  | nil => exact Or.inl ⟨rfl, rfl⟩
  | cons s rest ih =>
    cases s with
    | empty =>
      rcases ih (i + 1) with ⟨h1, h2⟩ | ⟨j, s2, h1, h2, h3, h4, h5⟩
      · refine Or.inl ⟨h1, ?_⟩
        simp [pagesList, slotList, h2]
      · refine Or.inr ⟨j + 1, s2, ?_, ?_, ?_, h4, ?_⟩
        · show findFirstNonEmpty (i + 1) rest = some (i + (j + 1))
          rw [h1]
          congr 1
          omega
        · simp only [List.length_cons]
          omega
        · simpa using h3
        · simp only [pagesList, slotList, List.nil_append, List.drop_succ_cons]
          exact h5
    | leaf k v =>
      refine Or.inr ⟨0, .leaf k v, ?_, by simp, by simp, by simp, ?_⟩
      · show some i = some (i + 0)
        simp
      · simp [pagesList, slotList]
    | book b2 =>
      refine Or.inr ⟨0, .book b2, ?_, by simp, by simp, by simp, ?_⟩
      · show some i = some (i + 0)
        simp
      · simp [pagesList, slotList]

theorem pagesAll_iff {P : Book V → Bool} {l : List (Slot V)} :
    pagesAll P l = true ↔ ∀ s ∈ l, slotAll P s = true := by
  induction l with
  | nil => simp [pagesAll]
  | cons s rest ih =>
    simp only [pagesAll, Bool.and_eq_true, ih, List.mem_cons]
    constructor
    · rintro ⟨h1, h2⟩ s2 (rfl | hs2)
      · exact h1
      · exact h2 s2 hs2
    · intro h
      exact ⟨h s (Or.inl rfl), fun s2 hs2 => h s2 (Or.inr hs2)⟩

theorem bookAll_unfold {P : Book V → Bool} {b : Book V} :
    bookAll P b = true ↔ P b = true ∧ ∀ s ∈ b.pages, slotAll P s = true := by
  cases b with
  | mk pages e n =>
    show (P (Book.mk pages e n) && pagesAll P pages) = true ↔ _
    rw [Bool.and_eq_true, pagesAll_iff]
    rfl

theorem sizeOf_book_lt {b b2 : Book V} (h : Slot.book b2 ∈ b.pages) :
    sizeOf b2 < sizeOf b := by
  have h1 : sizeOf (Slot.book b2) < sizeOf b.pages := List.sizeOf_lt_of_mem h
  cases b with
  | mk pages e n =>
    simp only [Book.pages] at h1
    simp only [Slot.book.sizeOf_spec] at h1
    simp only [Book.mk.sizeOf_spec]
    omega

theorem getD_mem {l : List (Slot V)} {j : Nat} (hj : j < l.length) :
    l.getD j .empty ∈ l := by
  rw [List.getD_eq_getElem _ _ hj]
  exact List.getElem_mem hj

theorem collapse_step_empty {c : Book V} {j : Nat}
    (h : c.pages.getD j .empty = .empty) :
    collapse c (some j) = .ok none := by
  rw [collapse.eq_def]
  split
  · rename_i heq
    cases heq
  · rename_i v heq
    cases heq
    split
    · rfl
    · rename_i k2 v2 heq2
      rw [h] at heq2
      cases heq2
    · rename_i b2 heq2
      rw [h] at heq2
      cases heq2

theorem collapse_step_leaf {c : Book V} {j : Nat} {k : Key} {v : V}
    (h : c.pages.getD j .empty = .leaf k v) :
    collapse c (some j) = .ok (some (k, v)) := by
  rw [collapse.eq_def]
  split
  · rename_i heq
    cases heq
  · rename_i v2 heq
    cases heq
    split
    · rename_i heq2
      rw [h] at heq2
      cases heq2
    · rename_i k3 v3 heq2
      rw [h] at heq2
      cases heq2
      rfl
    · rename_i b2 heq2
      rw [h] at heq2
      cases heq2

theorem collapse_step_book {c b2 : Book V} {j : Nat}
    (h : c.pages.getD j .empty = .book b2) :
    collapse c (some j) = collapse b2 (findRemaining b2) := by
  rw [collapse.eq_def]
  split
  · rename_i heq
    cases heq
  · rename_i v heq
    cases heq
    split
    · rename_i heq2
      rw [h] at heq2
      cases heq2
    · rename_i k3 v3 heq2
      rw [h] at heq2
      cases heq2
    · rename_i b3 heq2
      rw [h] at heq2
      cases heq2
      rfl

/-- Under the no-dead-branch condition, collapsing a book that holds exactly
one reachable pair returns exactly that pair as a leaf — flattening through
any chain of singleton branches. -/
theorem collapse_singleton {c : Book V} {k0 : Key} {v0 : V}
    (hnd : noDeadBranch c = true) (hl : bookList c = [(k0, v0)]) :
    collapse c (findRemaining c) = .ok (some (k0, v0)) := by
  suffices hmain : ∀ (n : Nat) (c : Book V), sizeOf c ≤ n → ∀ (k0 : Key) (v0 : V),
      noDeadBranch c = true → bookList c = [(k0, v0)] →
      collapse c (findRemaining c) = .ok (some (k0, v0)) from
    hmain (sizeOf c) c le_rfl k0 v0 hnd hl
  intro n
  induction n with
  | zero =>
    intro c hc
    exfalso
    cases c with
    | mk pages e n0 =>
      simp only [Book.mk.sizeOf_spec] at hc
      omega
  | succ m ih =>
    intro c hc k0 v0 hnd hl
    have hbl : bookList c = pagesList c.pages := by
      cases c
      rfl
    rcases ffne_characterize c.pages 0 with ⟨h1, h2⟩ | ⟨j, s, h1, h2, h3, h4, h5⟩
    · rw [hbl, h2] at hl
      cases hl
    · rw [Nat.zero_add] at h1
      rw [hbl, h5] at hl
      rw [findRemaining, h1]
      cases s with
      | empty => exact absurd rfl h4
      | leaf k v =>
        simp only [slotList, List.singleton_append, List.cons.injEq] at hl
        rw [collapse_step_leaf h3]
        exact congrArg (fun p => (Except.ok (some p) : Except Err (Option (Key × V)))) hl.1
      | book b2 =>
        have hmem : Slot.book b2 ∈ c.pages := h3 ▸ getD_mem h2
        have hnd2 : noDeadBranch b2 = true := by
          have := (bookAll_unfold.1 hnd).2 _ hmem
          exact this
        have hne2 : bookList b2 ≠ [] := by
          have hP := (bookAll_unfold.1 hnd).1
          have := List.all_eq_true.1 hP _ hmem
          simp only at this
          intro hempty
          rw [hempty] at this
          simp at this
        have hl2 : bookList b2 = [(k0, v0)] := by
          show slotList (Slot.book b2) = _
          cases hsl : slotList (Slot.book b2) with
          | nil => exact absurd hsl hne2
          | cons a t =>
            rw [hsl] at hl
            simp only [List.cons_append, List.cons.injEq] at hl
            have ht : t = [] := by
              have := hl.2
              cases t with
              | nil => rfl
              | cons x y => simp at this
            rw [hl.1, ht]
        rw [collapse_step_book h3]
        exact ih b2 (by have := sizeOf_book_lt hmem; omega) k0 v0 hnd2 hl2

/-! ## Projections of the full invariant -/

theorem bookAll_of_inv {P : Book V → Bool}
    (hP : ∀ (ℓ : Nat) (b : Book V), bookInv ℓ b = true → P b = true) :
    ∀ (n : Nat) (b : Book V), sizeOf b ≤ n → ∀ ℓ, bookInv ℓ b = true →
      bookAll P b = true := by
  intro n
  induction n with
  | zero =>
    intro b hb
    exfalso
    cases b with
    | mk pages e n0 =>
      simp only [Book.mk.sizeOf_spec] at hb
      omega
  | succ m ih =>
    intro b hb ℓ hinv
    rw [bookAll_unfold]
    refine ⟨hP ℓ b hinv, ?_⟩
    intro s hs
    cases s with
    | empty => rfl
    | leaf k v => rfl
    | book b2 =>
      show bookAll P b2 = true
      obtain ⟨i, hi, hgi⟩ := List.mem_iff_getElem.1 hs
      have h36 : b.pages.length = 36 := (bookInv_iff.1 hinv).1
      have hslot := bookInv_slot hinv (i := i) (by omega)
      rw [List.getD_eq_getElem _ _ hi, hgi] at hslot
      have hinv2 := (slotInv_book_iff.1 hslot).1
      exact ih b2 (by have := sizeOf_book_lt hs; omega) (ℓ + 1) hinv2

theorem noDeadBranch_of_inv {ℓ : Nat} {b : Book V} (hinv : bookInv ℓ b = true) :
    noDeadBranch b = true := by
  refine bookAll_of_inv ?_ (sizeOf b) b le_rfl ℓ hinv
  intro ℓ2 b2 hinv2
  rw [List.all_eq_true]
  intro s hs
  cases s with
  | empty => rfl
  | leaf k v => rfl
  | book b3 =>
    obtain ⟨i, hi, hgi⟩ := List.mem_iff_getElem.1 hs
    have h36 := (bookInv_iff.1 hinv2).1
    have hslot := bookInv_slot hinv2 (i := i) (by omega)
    rw [List.getD_eq_getElem _ _ hi, hgi] at hslot
    have h2 := (slotInv_book_iff.1 hslot).2.1
    show decide (1 ≤ (bookList b3).length) = true
    exact decide_eq_true (by omega)

theorem canonical_of_inv {ℓ : Nat} {b : Book V} (hinv : bookInv ℓ b = true) :
    canonical b = true := by
  refine bookAll_of_inv ?_ (sizeOf b) b le_rfl ℓ hinv
  intro ℓ2 b2 hinv2
  rw [canonicalHere, List.all_eq_true]
  intro s hs
  cases s with
  | empty => rfl
  | leaf k v => rfl
  | book b3 =>
    obtain ⟨i, hi, hgi⟩ := List.mem_iff_getElem.1 hs
    have h36 := (bookInv_iff.1 hinv2).1
    have hslot := bookInv_slot hinv2 (i := i) (by omega)
    rw [List.getD_eq_getElem _ _ hi, hgi] at hslot
    have h2 := (slotInv_book_iff.1 hslot).2.1
    show decide (2 ≤ (bookList b3).length) = true
    exact decide_eq_true h2

theorem countersOK_of_inv {ℓ : Nat} {b : Book V} (hinv : bookInv ℓ b = true) :
    countersOK b = true := by
  refine bookAll_of_inv ?_ (sizeOf b) b le_rfl ℓ hinv
  intro ℓ2 b2 hinv2
  rw [counterOKHere]
  exact decide_eq_true (bookInv_iff.1 hinv2).2.1

/-! ## The master specification of `delete` calls -/

theorem delete_spec {b : Book V} {ℓ : Nat} {k : Key}
    (hinv : bookInv ℓ b = true) :
    (∀ b' e, delete b ℓ k = (b', some e) →
      b' = b ∧ (e = .notFound ∨ e = .keyTooShort ∨ e = .invalidSymbol) ∧
        (∀ v0 : V, (k, v0) ∉ bookList b)) ∧
    (∀ b', delete b ℓ k = (b', none) →
      bookInv ℓ b' = true ∧ (∃ v0, (k, v0) ∈ bookList b) ∧
        b'.len = b.len - 1 ∧
        (∀ p, p ∈ bookList b' ↔ p ∈ bookList b ∧ p.1 ≠ k)) := by
  induction b, ℓ, k using delete.induct (V := V) with
  | case1 b ℓ k hℓ hpi =>
    constructor
    · intro b' e h
      rw [delete.eq_def, dif_pos hℓ] at h
      simp only [hpi] at h
      simp only [Prod.mk.injEq, Option.some.injEq] at h
      obtain ⟨h1, h2⟩ := h
      subst h2
      refine ⟨h1.symm, Or.inr (Or.inr rfl), ?_⟩
      intro v0 hv0
      obtain ⟨i, -, hpi2, -, -⟩ := mem_bookList_localize hinv hv0
      rw [hpi] at hpi2
      cases hpi2
    · intro b' h
      rw [delete.eq_def, dif_pos hℓ] at h
      simp only [hpi] at h
      exact absurd h (by simp)
  | case2 b ℓ k hℓ idx hpi hslot =>
    constructor
    · intro b' e h
      rw [delete.eq_def, dif_pos hℓ] at h
      simp only [hpi, hslot] at h
      simp only [Prod.mk.injEq, Option.some.injEq] at h
      obtain ⟨h1, h2⟩ := h
      subst h2
      refine ⟨h1.symm, Or.inl rfl, ?_⟩
      intro v0 hv0
      obtain ⟨i, -, hpi2, -, hps⟩ := mem_bookList_localize hinv hv0
      rw [hpi] at hpi2
      cases hpi2
      rw [hslot] at hps
      simp [slotList] at hps
    · intro b' h
      rw [delete.eq_def, dif_pos hℓ] at h
      simp only [hpi, hslot] at h
      exact absurd h (by simp)
  | case3 b ℓ idx k v hslot hℓ hpi =>
    have h36 : b.pages.length = 36 := (bookInv_iff.1 hinv).1
    have hidx : idx < b.pages.length := by
      rw [h36]
      exact pageIndex_lt_36 hpi
    have hcnt : b.len = ((bookList b).length : Int) := (bookInv_iff.1 hinv).2.1
    constructor
    · intro b' e h
      rw [delete.eq_def, dif_pos hℓ] at h
      simp only [hpi, hslot, if_true] at h
      exact absurd h (by simp)
    · intro b' h
      rw [delete.eq_def, dif_pos hℓ] at h
      simp only [hpi, hslot, if_true] at h
      simp only [Prod.mk.injEq, and_true] at h
      subst h
      refine ⟨?_, ⟨v, ?_⟩, rfl, ?_⟩
      · refine bookInv_update hinv hidx (slotInv_empty_eq ℓ idx) ?_
        have hbp : bookList b = pagesList b.pages := by cases b; rfl
        rw [pagesList_set_length hidx, hslot, ← hbp]
        rw [bookList_split hidx, hslot] at hcnt ⊢
        simp only [slotList, List.length_append, List.length_nil,
          List.length_cons] at hcnt ⊢
        push_cast at hcnt ⊢
        omega
      · exact mem_slot_mem_bookList hidx (by rw [hslot]; simp [slotList])
      · intro p
        rw [mem_bookList_set hidx, mem_bookList_parts hidx, hslot]
        simp only [slotList, List.mem_singleton, List.not_mem_nil, false_or]
        constructor
        · rintro (hp | hp)
          · exact ⟨Or.inl hp, other_slot_key_ne hinv hpi (Or.inl hp)⟩
          · exact ⟨Or.inr (Or.inr hp), other_slot_key_ne hinv hpi (Or.inr hp)⟩
        · rintro ⟨hp | hp | hp, hne⟩
          · exact Or.inl hp
          · subst hp
            exact absurd rfl hne
          · exact Or.inr hp
  | case4 b ℓ k hℓ idx hpi k1 v hslot hne =>
    constructor
    · intro b' e h
      rw [delete.eq_def, dif_pos hℓ] at h
      simp only [hpi, hslot, if_neg hne] at h
      simp only [Prod.mk.injEq, Option.some.injEq] at h
      obtain ⟨h1, h2⟩ := h
      subst h2
      refine ⟨h1.symm, Or.inl rfl, ?_⟩
      intro v0 hv0
      obtain ⟨i, -, hpi2, -, hps⟩ := mem_bookList_localize hinv hv0
      rw [hpi] at hpi2
      cases hpi2
      rw [hslot] at hps
      simp only [slotList, List.mem_singleton, Prod.mk.injEq] at hps
      exact hne hps.1.symm
    · intro b' h
      rw [delete.eq_def, dif_pos hℓ] at h
      simp only [hpi, hslot, if_neg hne] at h
      exact absurd h (by simp)
  | case5 b ℓ k hℓ idx hpi child hslot fst e0 hrec ih =>
    have hold := bookInv_slot hinv (pageIndex_lt_36 hpi)
    rw [hslot] at hold
    obtain ⟨hinvc, h2c, hmemc⟩ := slotInv_book_iff.1 hold
    obtain ⟨hfst, he, habs⟩ := (ih hinvc).1 fst e0 hrec
    subst hfst
    constructor
    · intro b' e h
      rw [delete.eq_def, dif_pos hℓ] at h
      simp only [hpi, hslot, hrec] at h
      simp only [Prod.mk.injEq, Option.some.injEq] at h
      obtain ⟨h1, h2⟩ := h
      subst h2
      rw [set_self_of_getD hslot, Book.eta] at h1
      refine ⟨h1.symm, he, ?_⟩
      intro v0 hv0
      obtain ⟨i, -, hpi2, -, hps⟩ := mem_bookList_localize hinv hv0
      rw [hpi] at hpi2
      cases hpi2
      rw [hslot] at hps
      exact habs v0 hps
    · intro b' h
      rw [delete.eq_def, dif_pos hℓ] at h
      simp only [hpi, hslot, hrec] at h
      exact absurd h (by simp)
  | case6 b ℓ k hℓ idx hpi child hslot nb2 hrec hlen0 ih =>
    -- child held at least two entries, so it cannot reach count zero
    exfalso
    have h36 : b.pages.length = 36 := (bookInv_iff.1 hinv).1
    have hold := bookInv_slot hinv (pageIndex_lt_36 hpi)
    rw [hslot] at hold
    obtain ⟨hinvc, h2c, hmemc⟩ := slotInv_book_iff.1 hold
    obtain ⟨-, -, hlen, -⟩ := (ih hinvc).2 nb2 hrec
    have hcntc : child.len = ((bookList child).length : Int) :=
      (bookInv_iff.1 hinvc).2.1
    omega
  | case7 b ℓ k hℓ idx hpi child hslot nb2 hrec hne0 hlen1 e0 hcol ih =>
    -- with one survivor, collapse cannot fail
    exfalso
    have h36 : b.pages.length = 36 := (bookInv_iff.1 hinv).1
    have hold := bookInv_slot hinv (pageIndex_lt_36 hpi)
    rw [hslot] at hold
    obtain ⟨hinvc, h2c, hmemc⟩ := slotInv_book_iff.1 hold
    obtain ⟨hinv2, -, hlen, -⟩ := (ih hinvc).2 nb2 hrec
    have hcnt2 : nb2.len = ((bookList nb2).length : Int) := (bookInv_iff.1 hinv2).2.1
    have hone : (bookList nb2).length = 1 := by omega
    obtain ⟨p, hp⟩ := List.length_eq_one.1 hone
    have := collapse_singleton (noDeadBranch_of_inv hinv2) (by rw [hp])
    rw [hcol] at this
    cases this
  | case8 b ℓ k hℓ idx hpi child hslot nb2 hrec hne0 hlen1 hcol ih =>
    -- with one survivor, collapse cannot return Python None
    exfalso
    have h36 : b.pages.length = 36 := (bookInv_iff.1 hinv).1
    have hold := bookInv_slot hinv (pageIndex_lt_36 hpi)
    rw [hslot] at hold
    obtain ⟨hinvc, h2c, hmemc⟩ := slotInv_book_iff.1 hold
    obtain ⟨hinv2, -, hlen, -⟩ := (ih hinvc).2 nb2 hrec
    have hcnt2 : nb2.len = ((bookList nb2).length : Int) := (bookInv_iff.1 hinv2).2.1
    have hone : (bookList nb2).length = 1 := by omega
    obtain ⟨p, hp⟩ := List.length_eq_one.1 hone
    have := collapse_singleton (noDeadBranch_of_inv hinv2) (by rw [hp])
    rw [hcol] at this
    cases this
  | case9 b ℓ k hℓ idx hpi child hslot nb2 hrec hne0 hlen1 k0 v0 hcol ih =>
    have h36 : b.pages.length = 36 := (bookInv_iff.1 hinv).1
    have hidx : idx < b.pages.length := by
      rw [h36]
      exact pageIndex_lt_36 hpi
    have hcnt : b.len = ((bookList b).length : Int) := (bookInv_iff.1 hinv).2.1
    have hold := bookInv_slot hinv (pageIndex_lt_36 hpi)
    rw [hslot] at hold
    obtain ⟨hinvc, h2c, hmemc⟩ := slotInv_book_iff.1 hold
    obtain ⟨hinv2, ⟨w0, hw0⟩, hlen, hmem2⟩ := (ih hinvc).2 nb2 hrec
    have hcntc : child.len = ((bookList child).length : Int) :=
      (bookInv_iff.1 hinvc).2.1
    have hcnt2 : nb2.len = ((bookList nb2).length : Int) := (bookInv_iff.1 hinv2).2.1
    have hone : (bookList nb2).length = 1 := by omega
    obtain ⟨p, hp⟩ := List.length_eq_one.1 hone
    have hcol2 := collapse_singleton (noDeadBranch_of_inv hinv2) (by rw [hp])
    rw [hcol] at hcol2
    have hpeq : p = (k0, v0) := by
      cases hcol2
      rfl
    subst hpeq
    have hk0mem : (k0, v0) ∈ bookList nb2 := by
      rw [hp]
      simp
    have hk0child := ((hmem2 (k0, v0)).1 hk0mem).1
    have hk0ne : k0 ≠ k := ((hmem2 (k0, v0)).1 hk0mem).2
    constructor
    · intro b' e h
      rw [delete.eq_def, dif_pos hℓ] at h
      simp only [hpi, hslot, hrec, if_neg hne0, if_pos hlen1, hcol] at h
      exact absurd h (by simp)
    · intro b' h
      rw [delete.eq_def, dif_pos hℓ] at h
      simp only [hpi, hslot, hrec, if_neg hne0, if_pos hlen1, hcol] at h
      simp only [Prod.mk.injEq, and_true] at h
      subst h
      have hltc : nb2.len < child.len := by omega
      rw [if_pos hltc]
      refine ⟨?_, ⟨w0, mem_slot_mem_bookList hidx (by rw [hslot]; exact hw0)⟩,
        rfl, ?_⟩
      · refine bookInv_update hinv hidx
          (slotInv_leaf_iff.2 ⟨(hmemc _ hk0child).1, (hmemc _ hk0child).2⟩) ?_
        have hbp : bookList b = pagesList b.pages := by cases b; rfl
        rw [pagesList_set_length hidx, hslot, ← hbp]
        rw [bookList_split hidx, hslot] at hcnt ⊢
        simp only [slotList, List.length_append, List.length_cons,
          List.length_nil] at hcnt ⊢
        push_cast at hcnt ⊢
        omega
      · intro q
        rw [mem_bookList_set hidx, mem_bookList_parts hidx, hslot]
        simp only [slotList, List.mem_singleton]
        constructor
        · rintro (hq | hq | hq)
          · exact ⟨Or.inl hq, other_slot_key_ne hinv hpi (Or.inl hq)⟩
          · subst hq
            exact ⟨Or.inr (Or.inl hk0child), hk0ne⟩
          · exact ⟨Or.inr (Or.inr hq), other_slot_key_ne hinv hpi (Or.inr hq)⟩
        · rintro ⟨hq | hq | hq, hqne⟩
          · exact Or.inl hq
          · have : q ∈ bookList nb2 := (hmem2 q).2 ⟨hq, hqne⟩
            rw [hp] at this
            simp only [List.mem_singleton] at this
            exact Or.inr (Or.inl this)
          · exact Or.inr (Or.inr hq)
  | case10 b ℓ k hℓ idx hpi child hslot nb2 hrec hne0 hne1 ih =>
    have h36 : b.pages.length = 36 := (bookInv_iff.1 hinv).1
    have hidx : idx < b.pages.length := by
      rw [h36]
      exact pageIndex_lt_36 hpi
    have hcnt : b.len = ((bookList b).length : Int) := (bookInv_iff.1 hinv).2.1
    have hold := bookInv_slot hinv (pageIndex_lt_36 hpi)
    rw [hslot] at hold
    obtain ⟨hinvc, h2c, hmemc⟩ := slotInv_book_iff.1 hold
    obtain ⟨hinv2, ⟨w0, hw0⟩, hlen, hmem2⟩ := (ih hinvc).2 nb2 hrec
    have hcntc : child.len = ((bookList child).length : Int) :=
      (bookInv_iff.1 hinvc).2.1
    have hcnt2 : nb2.len = ((bookList nb2).length : Int) := (bookInv_iff.1 hinv2).2.1
    constructor
    · intro b' e h
      rw [delete.eq_def, dif_pos hℓ] at h
      simp only [hpi, hslot, hrec, if_neg hne0, if_neg hne1] at h
      exact absurd h (by simp)
    · intro b' h
      rw [delete.eq_def, dif_pos hℓ] at h
      simp only [hpi, hslot, hrec, if_neg hne0, if_neg hne1] at h
      simp only [Prod.mk.injEq, and_true] at h
      subst h
      have hltc : nb2.len < child.len := by omega
      rw [if_pos hltc]
      refine ⟨?_, ⟨w0, mem_slot_mem_bookList hidx (by rw [hslot]; exact hw0)⟩,
        rfl, ?_⟩
      · refine bookInv_update hinv hidx ?_ ?_
        · rw [slotInv_book_iff]
          refine ⟨hinv2, by omega, ?_⟩
          intro p hp
          exact hmemc p ((hmem2 p).1 hp).1
        · have hbp : bookList b = pagesList b.pages := by cases b; rfl
          rw [pagesList_set_length hidx, hslot, ← hbp]
          rw [bookList_split hidx, hslot] at hcnt ⊢
          simp only [slotList, List.length_append] at hcnt ⊢
          push_cast at hcnt ⊢
          omega
      · intro q
        rw [mem_bookList_set hidx, mem_bookList_parts hidx, hslot]
        rw [show (q ∈ slotList (Slot.book nb2)) = (q ∈ bookList nb2) from rfl,
          show (q ∈ slotList (Slot.book child)) = (q ∈ bookList child) from rfl]
        constructor
        · rintro (hq | hq | hq)
          · exact ⟨Or.inl hq, other_slot_key_ne hinv hpi (Or.inl hq)⟩
          · obtain ⟨hq1, hq2⟩ := (hmem2 q).1 hq
            exact ⟨Or.inr (Or.inl hq1), hq2⟩
          · exact ⟨Or.inr (Or.inr hq), other_slot_key_ne hinv hpi (Or.inr hq)⟩
        · rintro ⟨hq | hq | hq, hqne⟩
          · exact Or.inl hq
          · exact Or.inr (Or.inl ((hmem2 q).2 ⟨hq, hqne⟩))
          · exact Or.inr (Or.inr hq)
  | case11 b ℓ k hℓ =>
    constructor
    · intro b' e h
      rw [delete.eq_def, dif_neg hℓ] at h
      simp only [Prod.mk.injEq, Option.some.injEq] at h
      obtain ⟨h1, h2⟩ := h
      subst h2
      refine ⟨h1.symm, Or.inr (Or.inl rfl), ?_⟩
      intro v0 hv0
      obtain ⟨-, -, -, hlen, -⟩ := mem_bookList_localize hinv hv0
      exact absurd hlen hℓ
    · intro b' h
      rw [delete.eq_def, dif_neg hℓ] at h
      exact absurd h (by simp)

/-! ## Invariant preservation across operation sequences -/

theorem applyOp_inv [DecidableEq V] {b : Book V} (hinv : bookInv 0 b = true)
    (op : Op V) : bookInv 0 (applyOp b op) = true := by
  cases op with
  | setOp k v =>
    show bookInv 0 (set b 0 k v).1 = true
    rcases hr : set b 0 k v with ⟨b', r⟩
    cases r with
    | none => exact (set_ok_spec hinv hr).1
    | some e =>
      rw [(set_error_eq hr).1]
      exact hinv
  | delOp k =>
    show bookInv 0 (delete b 0 k).1 = true
    rcases hr : delete b 0 k with ⟨b', r⟩
    cases r with
    | none => exact ((delete_spec hinv).2 b' hr).1
    | some e =>
      rw [((delete_spec hinv).1 b' e hr).1]
      exact hinv
  | getOp k => exact hinv

theorem run_inv [DecidableEq V] (ops : List (Op V)) :
    bookInv 0 (run ops) = true := by
  suffices h : ∀ (b : Book V), bookInv 0 b = true →
      bookInv 0 (ops.foldl applyOp b) = true from
    h emptyBook (emptyBook_bookInv 0)
  induction ops with
  | nil => exact fun b hb => hb
  | cons op rest ih => exact fun b hb => ih _ (applyOp_inv hb op)

/-! ## `get` returns exactly the stored values (claim C5) -/

theorem get_ok_iff {b : Book V} {ℓ : Nat} {k : Key} (hinv : bookInv ℓ b = true)
    {v : V} : get b ℓ k = .ok v ↔ (k, v) ∈ bookList b := by
  induction b, ℓ, k using get.induct (V := V) with
  | case1 b ℓ k hℓ hpi =>
    constructor
    · intro h
      rw [get.eq_def, dif_pos hℓ] at h
      simp only [hpi] at h
      exact absurd h (by simp)
    · intro hmem
      obtain ⟨i, -, hpi2, -, -⟩ := mem_bookList_localize hinv hmem
      rw [hpi] at hpi2
      cases hpi2
  | case2 b ℓ k hℓ idx hpi hslot =>
    constructor
    · intro h
      rw [get.eq_def, dif_pos hℓ] at h
      simp only [hpi, hslot] at h
      exact absurd h (by simp)
    · intro hmem
      obtain ⟨i, -, hpi2, -, hps⟩ := mem_bookList_localize hinv hmem
      rw [hpi] at hpi2
      cases hpi2
      rw [hslot] at hps
      simp [slotList] at hps
  | case3 b ℓ idx k v0 hslot hℓ hpi =>
    have hidx : idx < b.pages.length := by
      rw [(bookInv_iff.1 hinv).1]
      exact pageIndex_lt_36 hpi
    constructor
    · intro h
      rw [get.eq_def, dif_pos hℓ] at h
      simp only [hpi, hslot, if_true] at h
      injection h with hv
      subst hv
      exact mem_slot_mem_bookList hidx (by rw [hslot]; simp [slotList])
    · intro hmem
      obtain ⟨i, -, hpi2, -, hps⟩ := mem_bookList_localize hinv hmem
      rw [hpi] at hpi2
      cases hpi2
      rw [hslot] at hps
      simp only [slotList, List.mem_singleton, Prod.mk.injEq] at hps
      rw [get.eq_def, dif_pos hℓ]
      simp only [hpi, hslot, if_true]
      rw [hps.2]
  | case4 b ℓ k hℓ idx hpi k1 v1 hslot hne =>
    constructor
    · intro h
      rw [get.eq_def, dif_pos hℓ] at h
      simp only [hpi, hslot, if_neg hne] at h
      exact absurd h (by simp)
    · intro hmem
      obtain ⟨i, -, hpi2, -, hps⟩ := mem_bookList_localize hinv hmem
      rw [hpi] at hpi2
      cases hpi2
      rw [hslot] at hps
      simp only [slotList, List.mem_singleton, Prod.mk.injEq] at hps
      exact absurd hps.1.symm hne
  | case5 b ℓ k hℓ idx hpi child hslot ih =>
    have hidx : idx < b.pages.length := by
      rw [(bookInv_iff.1 hinv).1]
      exact pageIndex_lt_36 hpi
    have hold := bookInv_slot hinv (pageIndex_lt_36 hpi)
    rw [hslot] at hold
    have hinvc := (slotInv_book_iff.1 hold).1
    have hstep : get b ℓ k = get child (ℓ + 1) k := by
      rw [get.eq_def, dif_pos hℓ]
      simp only [hpi, hslot]
    rw [hstep, ih hinvc]
    constructor
    · intro hmem
      exact mem_slot_mem_bookList hidx (by rw [hslot]; exact hmem)
    · intro hmem
      obtain ⟨i, -, hpi2, -, hps⟩ := mem_bookList_localize hinv hmem
      rw [hpi] at hpi2
      cases hpi2
      rw [hslot] at hps
      exact hps
  | case6 b ℓ k hℓ =>
    constructor
    · intro h
      rw [get.eq_def, dif_neg hℓ] at h
      exact absurd h (by simp)
    · intro hmem
      obtain ⟨-, -, -, hlen, -⟩ := mem_bookList_localize hinv hmem
      exact absurd hlen hℓ

theorem get_never_internalFault (b : Book V) (ℓ : Nat) (k : Key) :
    get b ℓ k ≠ .error .internalFault := by
  induction b, ℓ, k using get.induct (V := V) with
  | case1 b ℓ k hℓ hpi =>
    rw [get.eq_def, dif_pos hℓ]
    simp only [hpi]
    simp
  | case2 b ℓ k hℓ idx hpi hslot =>
    rw [get.eq_def, dif_pos hℓ]
    simp only [hpi, hslot]
    simp
  | case3 b ℓ idx k v hslot hℓ hpi =>
    rw [get.eq_def, dif_pos hℓ]
    simp only [hpi, hslot, if_true]
    simp
  | case4 b ℓ k hℓ idx hpi k1 v1 hslot hne =>
    rw [get.eq_def, dif_pos hℓ]
    simp only [hpi, hslot, if_neg hne]
    simp
  | case5 b ℓ k hℓ idx hpi child hslot ih =>
    rw [get.eq_def, dif_pos hℓ]
    simp only [hpi, hslot]
    exact ih
  | case6 b ℓ k hℓ =>
    rw [get.eq_def, dif_neg hℓ]
    simp

theorem get_absent {b : Book V} {ℓ : Nat} {k : Key} (hinv : bookInv ℓ b = true)
    (habs : ∀ v0 : V, (k, v0) ∉ bookList b) :
    ∃ e, get b ℓ k = .error e ∧
      (e = .notFound ∨ e = .keyTooShort ∨ e = .invalidSymbol) := by
  cases hg : get b ℓ k with
  | ok v => exact absurd ((get_ok_iff hinv).1 hg) (habs v)
  | error e =>
    refine ⟨e, rfl, ?_⟩
    have hne := get_never_internalFault b ℓ k
    rw [hg] at hne
    cases e with
    | keyTooShort => exact Or.inr (Or.inl rfl)
    | invalidSymbol => exact Or.inr (Or.inr rfl)
    | notFound => exact Or.inl rfl
    | internalFault => exact absurd rfl hne

/-! ## Classifying the error of a failed navigation (claims C5 and C6) -/

theorem not_reachesIllegal_short {b : Book V} {ℓ : Nat} {k : Key}
    (hℓ : ¬ ℓ < k.sig.length) : ¬ reachesIllegal b ℓ k := by
  rintro ⟨b', ℓ', hd, hlt, -⟩
  cases hd with
  | refl => exact hℓ hlt
  | step hℓ2 hpi2 hslot2 hd2 => exact hℓ hℓ2

theorem not_reachesEmptyOrMismatch_short {b : Book V} {ℓ : Nat} {k : Key}
    (hℓ : ¬ ℓ < k.sig.length) : ¬ reachesEmptyOrMismatch b ℓ k := by
  rintro ⟨b', ℓ', idx, hd, hlt, -, -⟩
  cases hd with
  | refl => exact hℓ hlt
  | step hℓ2 hpi2 hslot2 hd2 => exact hℓ hℓ2

theorem not_reachesExhausted_illegal {b : Book V} {ℓ : Nat} {k : Key}
    (hℓ : ℓ < k.sig.length) (hpi : pageIndex (k.sig.getD ℓ ' ') = none) :
    ¬ reachesExhausted b ℓ k := by
  rintro ⟨b', ℓ', hd, hge⟩
  cases hd with
  | refl => omega
  | step hℓ2 hpi2 hslot2 hd2 =>
    rw [hpi] at hpi2
    cases hpi2

theorem not_reachesEmptyOrMismatch_illegal {b : Book V} {ℓ : Nat} {k : Key}
    (hpi : pageIndex (k.sig.getD ℓ ' ') = none) :
    ¬ reachesEmptyOrMismatch b ℓ k := by
  rintro ⟨b', ℓ', idx, hd, hlt, hpi2, -⟩
  cases hd with
  | refl =>
    rw [hpi] at hpi2
    cases hpi2
  | step hℓ2 hpi3 hslot3 hd3 =>
    rw [hpi] at hpi3
    cases hpi3

theorem not_reachesExhausted_stop {b : Book V} {ℓ idx : Nat} {k : Key}
    (hℓ : ℓ < k.sig.length) (hpi : pageIndex (k.sig.getD ℓ ' ') = some idx)
    (hbook : ∀ child : Book V, b.pages.getD idx Slot.empty ≠ Slot.book child) :
    ¬ reachesExhausted b ℓ k := by
  rintro ⟨b', ℓ', hd, hge⟩
  cases hd with
  | refl => omega
  | step hℓ2 hpi2 hslot2 hd2 =>
    rw [hpi] at hpi2
    injection hpi2 with h
    subst h
    exact hbook _ hslot2

theorem not_reachesIllegal_stop {b : Book V} {ℓ idx : Nat} {k : Key}
    (hpi : pageIndex (k.sig.getD ℓ ' ') = some idx)
    (hbook : ∀ child : Book V, b.pages.getD idx Slot.empty ≠ Slot.book child) :
    ¬ reachesIllegal b ℓ k := by
  rintro ⟨b', ℓ', hd, hlt, hnone⟩
  cases hd with
  | refl =>
    rw [hpi] at hnone
    cases hnone
  | step hℓ2 hpi2 hslot2 hd2 =>
    rw [hpi] at hpi2
    injection hpi2 with h
    subst h
    exact hbook _ hslot2

theorem not_reachesEmptyOrMismatch_hit {b : Book V} {ℓ idx : Nat} {k : Key}
    {v : V} (hpi : pageIndex (k.sig.getD ℓ ' ') = some idx)
    (hslot : b.pages.getD idx Slot.empty = Slot.leaf k v) :
    ¬ reachesEmptyOrMismatch b ℓ k := by
  rintro ⟨b', ℓ', idx2, hd, hlt, hpi2, hcond⟩
  cases hd with
  | refl =>
    rw [hpi] at hpi2
    injection hpi2 with h
    subst h
    rcases hcond with hemp | ⟨k2, v2, hleaf, hne⟩
    · rw [hslot] at hemp
      cases hemp
    · rw [hslot] at hleaf
      injection hleaf with h1 h2
      exact hne h1.symm
  | step hℓ2 hpi3 hslot3 hd3 =>
    rw [hpi] at hpi3
    injection hpi3 with h
    subst h
    rw [hslot] at hslot3
    cases hslot3

theorem reachesExhausted_book {b child : Book V} {ℓ idx : Nat} {k : Key}
    (hℓ : ℓ < k.sig.length) (hpi : pageIndex (k.sig.getD ℓ ' ') = some idx)
    (hslot : b.pages.getD idx Slot.empty = Slot.book child) :
    reachesExhausted b ℓ k ↔ reachesExhausted child (ℓ + 1) k := by
  constructor
  · rintro ⟨b', ℓ', hd, hge⟩
    cases hd with
    | refl => omega
    | step hℓ2 hpi2 hslot2 hd2 =>
      rw [hpi] at hpi2
      injection hpi2 with h
      subst h
      rw [hslot] at hslot2
      injection hslot2 with h2
      subst h2
      exact ⟨b', ℓ', hd2, hge⟩
  · rintro ⟨b', ℓ', hd, hge⟩
    exact ⟨b', ℓ', Descends.step hℓ hpi hslot hd, hge⟩

theorem reachesIllegal_book {b child : Book V} {ℓ idx : Nat} {k : Key}
    (hℓ : ℓ < k.sig.length) (hpi : pageIndex (k.sig.getD ℓ ' ') = some idx)
    (hslot : b.pages.getD idx Slot.empty = Slot.book child) :
    reachesIllegal b ℓ k ↔ reachesIllegal child (ℓ + 1) k := by
  constructor
  · rintro ⟨b', ℓ', hd, hlt, hnone⟩
    cases hd with
    | refl =>
      rw [hpi] at hnone
      cases hnone
    | step hℓ2 hpi2 hslot2 hd2 =>
      rw [hpi] at hpi2
      injection hpi2 with h
      subst h
      rw [hslot] at hslot2
      injection hslot2 with h2
      subst h2
      exact ⟨b', ℓ', hd2, hlt, hnone⟩
  · rintro ⟨b', ℓ', hd, hlt, hnone⟩
    exact ⟨b', ℓ', Descends.step hℓ hpi hslot hd, hlt, hnone⟩

theorem reachesEmptyOrMismatch_book {b child : Book V} {ℓ idx : Nat} {k : Key}
    (hℓ : ℓ < k.sig.length) (hpi : pageIndex (k.sig.getD ℓ ' ') = some idx)
    (hslot : b.pages.getD idx Slot.empty = Slot.book child) :
    reachesEmptyOrMismatch b ℓ k ↔ reachesEmptyOrMismatch child (ℓ + 1) k := by
  constructor
  · rintro ⟨b', ℓ', idx2, hd, hlt, hpi2, hcond⟩
    cases hd with
    | refl =>
      rw [hpi] at hpi2
      injection hpi2 with h
      subst h
      rcases hcond with hemp | ⟨k2, v2, hleaf, -⟩
      · rw [hslot] at hemp
        cases hemp
      · rw [hslot] at hleaf
        cases hleaf
    | step hℓ2 hpi3 hslot3 hd3 =>
      rw [hpi] at hpi3
      injection hpi3 with h
      subst h
      rw [hslot] at hslot3
      injection hslot3 with h2
      subst h2
      exact ⟨b', ℓ', idx2, hd3, hlt, hpi2, hcond⟩
  · rintro ⟨b', ℓ', idx2, hd, hlt, hpi2, hcond⟩
    exact ⟨b', ℓ', idx2, Descends.step hℓ hpi hslot hd, hlt, hpi2, hcond⟩

theorem get_err_classify (b : Book V) (ℓ : Nat) (k : Key) :
    (get b ℓ k = .error .keyTooShort ↔ reachesExhausted b ℓ k) ∧
      (get b ℓ k = .error .invalidSymbol ↔ reachesIllegal b ℓ k) ∧
      (get b ℓ k = .error .notFound ↔ reachesEmptyOrMismatch b ℓ k) := by
  induction b, ℓ, k using get.induct (V := V) with
  | case1 b ℓ k hℓ hpi =>
    have hg : get b ℓ k = .error .invalidSymbol := by
      rw [get.eq_def, dif_pos hℓ]
      simp only [hpi]
    rw [hg]
    refine ⟨⟨fun h => absurd h (by simp),
        fun h => absurd h (not_reachesExhausted_illegal hℓ hpi)⟩,
      ⟨fun h => ⟨b, ℓ, Descends.refl b ℓ, hℓ, hpi⟩, fun h => rfl⟩,
      ⟨fun h => absurd h (by simp),
        fun h => absurd h (not_reachesEmptyOrMismatch_illegal hpi)⟩⟩
  | case2 b ℓ k hℓ idx hpi hslot =>
    have hg : get b ℓ k = .error .notFound := by
      rw [get.eq_def, dif_pos hℓ]
      simp only [hpi, hslot]
    have hbook : ∀ child : Book V,
        b.pages.getD idx Slot.empty ≠ Slot.book child := by
      intro child hc
      rw [hslot] at hc
      cases hc
    rw [hg]
    refine ⟨⟨fun h => absurd h (by simp),
        fun h => absurd h (not_reachesExhausted_stop hℓ hpi hbook)⟩,
      ⟨fun h => absurd h (by simp),
        fun h => absurd h (not_reachesIllegal_stop hpi hbook)⟩,
      ⟨fun h => ⟨b, ℓ, idx, Descends.refl b ℓ, hℓ, hpi, Or.inl hslot⟩,
        fun h => rfl⟩⟩
  | case3 b ℓ idx k v0 hslot hℓ hpi =>
    have hg : get b ℓ k = .ok v0 := by
      rw [get.eq_def, dif_pos hℓ]
      simp only [hpi, hslot, if_true]
    have hbook : ∀ child : Book V,
        b.pages.getD idx Slot.empty ≠ Slot.book child := by
      intro child hc
      rw [hslot] at hc
      cases hc
    rw [hg]
    refine ⟨⟨fun h => absurd h (by simp),
        fun h => absurd h (not_reachesExhausted_stop hℓ hpi hbook)⟩,
      ⟨fun h => absurd h (by simp),
        fun h => absurd h (not_reachesIllegal_stop hpi hbook)⟩,
      ⟨fun h => absurd h (by simp),
        fun h => absurd h (not_reachesEmptyOrMismatch_hit hpi hslot)⟩⟩
  | case4 b ℓ k hℓ idx hpi k1 v1 hslot hne =>
    have hg : get b ℓ k = .error .notFound := by
      rw [get.eq_def, dif_pos hℓ]
      simp only [hpi, hslot, if_neg hne]
    have hbook : ∀ child : Book V,
        b.pages.getD idx Slot.empty ≠ Slot.book child := by
      intro child hc
      rw [hslot] at hc
      cases hc
    rw [hg]
    refine ⟨⟨fun h => absurd h (by simp),
        fun h => absurd h (not_reachesExhausted_stop hℓ hpi hbook)⟩,
      ⟨fun h => absurd h (by simp),
        fun h => absurd h (not_reachesIllegal_stop hpi hbook)⟩,
      ⟨fun h => ⟨b, ℓ, idx, Descends.refl b ℓ, hℓ, hpi,
          Or.inr ⟨k1, v1, hslot, hne⟩⟩,
        fun h => rfl⟩⟩
  | case5 b ℓ k hℓ idx hpi child hslot ih =>
    have hstep : get b ℓ k = get child (ℓ + 1) k := by
      rw [get.eq_def, dif_pos hℓ]
      simp only [hpi, hslot]
    rw [hstep, reachesExhausted_book hℓ hpi hslot,
      reachesIllegal_book hℓ hpi hslot,
      reachesEmptyOrMismatch_book hℓ hpi hslot]
    exact ih
  | case6 b ℓ k hℓ =>
    have hg : get b ℓ k = .error .keyTooShort := by
      rw [get.eq_def, dif_neg hℓ]
    rw [hg]
    refine ⟨⟨fun h => ⟨b, ℓ, Descends.refl b ℓ, by omega⟩, fun h => rfl⟩,
      ⟨fun h => absurd h (by simp),
        fun h => absurd h (not_reachesIllegal_short hℓ)⟩,
      ⟨fun h => absurd h (by simp),
        fun h => absurd h (not_reachesEmptyOrMismatch_short hℓ)⟩⟩

theorem delete_err_get {b : Book V} {ℓ : Nat} {k : Key}
    (hinv : bookInv ℓ b = true) :
    ∀ b' e, delete b ℓ k = (b', some e) → get b ℓ k = .error e := by
  induction b, ℓ, k using delete.induct (V := V) with
  | case1 b ℓ k hℓ hpi =>
    intro b' e h
    rw [delete.eq_def, dif_pos hℓ] at h
    simp only [hpi] at h
    simp only [Prod.mk.injEq, Option.some.injEq] at h
    obtain ⟨-, h2⟩ := h
    subst h2
    rw [get.eq_def, dif_pos hℓ]
    simp only [hpi]
  | case2 b ℓ k hℓ idx hpi hslot =>
    intro b' e h
    rw [delete.eq_def, dif_pos hℓ] at h
    simp only [hpi, hslot] at h
    simp only [Prod.mk.injEq, Option.some.injEq] at h
    obtain ⟨-, h2⟩ := h
    subst h2
    rw [get.eq_def, dif_pos hℓ]
    simp only [hpi, hslot]
  | case3 b ℓ idx k v hslot hℓ hpi =>
    intro b' e h
    rw [delete.eq_def, dif_pos hℓ] at h
    simp only [hpi, hslot, if_true] at h
    exact absurd h (by simp)
  | case4 b ℓ k hℓ idx hpi k1 v hslot hne =>
    intro b' e h
    rw [delete.eq_def, dif_pos hℓ] at h
    simp only [hpi, hslot, if_neg hne] at h
    simp only [Prod.mk.injEq, Option.some.injEq] at h
    obtain ⟨-, h2⟩ := h
    subst h2
    rw [get.eq_def, dif_pos hℓ]
    simp only [hpi, hslot, if_neg hne]
  | case5 b ℓ k hℓ idx hpi child hslot fst e0 hrec ih =>
    intro b' e h
    have hold := bookInv_slot hinv (pageIndex_lt_36 hpi)
    rw [hslot] at hold
    obtain ⟨hinvc, -, -⟩ := slotInv_book_iff.1 hold
    rw [delete.eq_def, dif_pos hℓ] at h
    simp only [hpi, hslot, hrec] at h
    simp only [Prod.mk.injEq, Option.some.injEq] at h
    obtain ⟨-, h2⟩ := h
    subst h2
    rw [get.eq_def, dif_pos hℓ]
    simp only [hpi, hslot]
    exact ih hinvc fst e0 hrec
  | case6 b ℓ k hℓ idx hpi child hslot nb2 hrec hlen0 ih =>
    intro b' e h
    rw [delete.eq_def, dif_pos hℓ] at h
    simp only [hpi, hslot, hrec, if_pos hlen0] at h
    exact absurd h (by simp)
  | case7 b ℓ k hℓ idx hpi child hslot nb2 hrec hne0 hlen1 e0 hcol ih =>
    intro b' e h
    exfalso
    have hold := bookInv_slot hinv (pageIndex_lt_36 hpi)
    rw [hslot] at hold
    obtain ⟨hinvc, h2c, hmemc⟩ := slotInv_book_iff.1 hold
    obtain ⟨hinv2, -, hlen, -⟩ := (delete_spec hinvc).2 nb2 hrec
    have hcnt2 : nb2.len = ((bookList nb2).length : Int) :=
      (bookInv_iff.1 hinv2).2.1
    have hone : (bookList nb2).length = 1 := by omega
    obtain ⟨p, hp⟩ := List.length_eq_one.1 hone
    have hcol2 := collapse_singleton (noDeadBranch_of_inv hinv2) (by rw [hp])
    rw [hcol] at hcol2
    cases hcol2
  | case8 b ℓ k hℓ idx hpi child hslot nb2 hrec hne0 hlen1 hcol ih =>
    intro b' e h
    rw [delete.eq_def, dif_pos hℓ] at h
    simp only [hpi, hslot, hrec, if_neg hne0, if_pos hlen1, hcol] at h
    exact absurd h (by simp)
  | case9 b ℓ k hℓ idx hpi child hslot nb2 hrec hne0 hlen1 k0 v0 hcol ih =>
    intro b' e h
    rw [delete.eq_def, dif_pos hℓ] at h
    simp only [hpi, hslot, hrec, if_neg hne0, if_pos hlen1, hcol] at h
    exact absurd h (by simp)
  | case10 b ℓ k hℓ idx hpi child hslot nb2 hrec hne0 hne1 ih =>
    intro b' e h
    rw [delete.eq_def, dif_pos hℓ] at h
    simp only [hpi, hslot, hrec, if_neg hne0, if_neg hne1] at h
    exact absurd h (by simp)
  | case11 b ℓ k hℓ =>
    intro b' e h
    rw [delete.eq_def, dif_neg hℓ] at h
    simp only [Prod.mk.injEq, Option.some.injEq] at h
    obtain ⟨-, h2⟩ := h
    subst h2
    rw [get.eq_def, dif_neg hℓ]

/-! ## The traversal is strictly sorted in alphabet order (claim C4) -/

theorem idxSeq_drop_cons {k : Key} {ℓ : Nat} (hℓ : ℓ < k.sig.length) :
    (idxSeq k).drop ℓ =
      ((pageIndex (k.sig.getD ℓ ' ')).getD 36) :: (idxSeq k).drop (ℓ + 1) := by
  unfold idxSeq
  rw [← List.map_drop, ← List.map_drop, List.drop_eq_getElem_cons hℓ]
  rw [List.map_cons, List.getD_eq_getElem _ _ hℓ]

theorem sigLt_of_head_lt {k1 k2 : Key} {ℓ i1 i2 : Nat}
    (h1 : ℓ < k1.sig.length) (h2 : ℓ < k2.sig.length)
    (hp1 : pageIndex (k1.sig.getD ℓ ' ') = some i1)
    (hp2 : pageIndex (k2.sig.getD ℓ ' ') = some i2) (hlt : i1 < i2) :
    sigLt ℓ k1 k2 := by
  unfold sigLt
  rw [idxSeq_drop_cons h1, idxSeq_drop_cons h2, hp1, hp2]
  simp only [Option.getD_some]
  exact List.Lex.rel hlt

theorem sigLt_lift {k1 k2 : Key} {ℓ i : Nat}
    (h1 : ℓ < k1.sig.length) (h2 : ℓ < k2.sig.length)
    (hp1 : pageIndex (k1.sig.getD ℓ ' ') = some i)
    (hp2 : pageIndex (k2.sig.getD ℓ ' ') = some i)
    (h : sigLt (ℓ + 1) k1 k2) : sigLt ℓ k1 k2 := by
  unfold sigLt at h ⊢
  rw [idxSeq_drop_cons h1, idxSeq_drop_cons h2, hp1, hp2]
  simp only [Option.getD_some]
  exact List.Lex.cons h

theorem lex_lt_asymm : ∀ {l1 l2 : List Nat},
    List.Lex (· < ·) l1 l2 → List.Lex (· < ·) l2 l1 → False := by
  intro l1 l2 h1
  induction h1 with
  | nil =>
    intro h2
    cases h2
  | cons h ih =>
    intro h2
    cases h2 with
    | cons h3 => exact ih h3
    | rel h3 => exact lt_irrefl _ h3
  | rel h =>
    intro h2
    cases h2 with
    | cons h3 => exact lt_irrefl _ h
    | rel h3 => exact lt_irrefl _ (h.trans h3)

theorem sigLt_irrefl (ℓ : Nat) (k : Key) : ¬sigLt ℓ k k := fun h =>
  lex_lt_asymm h h

theorem sigLt_asymm {ℓ : Nat} {k1 k2 : Key} (h1 : sigLt ℓ k1 k2)
    (h2 : sigLt ℓ k2 k1) : False :=
  lex_lt_asymm h1 h2

theorem pagesPairwise {ℓ : Nat} :
    ∀ (l : List (Slot V)) (j : Nat),
      (∀ b2, Slot.book b2 ∈ l → ∀ ℓ2, bookInv ℓ2 b2 = true →
        (bookList b2).Pairwise (fun p q => sigLt ℓ2 p.1 q.1)) →
      (∀ m, m < l.length → slotInv ℓ (j + m) (l.getD m .empty) = true) →
      (pagesList l).Pairwise (fun p q => sigLt ℓ p.1 q.1) := by
  intro l
  induction l with
  | nil =>
    intro j hIH hinv
    simp [pagesList]
  | cons s rest ih =>
    intro j hIH hinv
    show (slotList s ++ pagesList rest).Pairwise _
    rw [List.pairwise_append]
    have hs : slotInv ℓ j s = true := by
      have := hinv 0 (by simp)
      simpa using this
    refine ⟨?_, ?_, ?_⟩
    · cases s with
      | empty => simp [slotList]
      | leaf k v => simp [slotList]
      | book b2 =>
        obtain ⟨hinv2, -, hall⟩ := slotInv_book_iff.1 hs
        have hpw := hIH b2 (by simp) (ℓ + 1) hinv2
        show (bookList b2).Pairwise _
        refine List.Pairwise.imp_of_mem ?_ hpw
        intro p q hp hq hlt
        obtain ⟨hp1, hp2⟩ := hall p hp
        obtain ⟨hq1, hq2⟩ := hall q hq
        exact sigLt_lift hp1 hq1 hp2 hq2 hlt
    · refine ih (j + 1) ?_ ?_
      · intro b2 hb2 ℓ2 hi2
        exact hIH b2 (List.mem_cons_of_mem _ hb2) ℓ2 hi2
      · intro m hm
        have := hinv (m + 1) (by simpa using hm)
        have harith : j + (m + 1) = j + 1 + m := by omega
        rw [harith] at this
        simpa using this
    · intro p hp q hq
      have hps := mem_slot_pageIndex hs hp
      obtain ⟨m, hm, hqs⟩ := mem_pagesList_idx.1 hq
      have hsq : slotInv ℓ (j + (m + 1)) (rest.getD m .empty) = true := by
        have := hinv (m + 1) (by simpa using hm)
        simpa using this
      have hqq := mem_slot_pageIndex hsq hqs
      exact sigLt_of_head_lt hps.1 hqq.1 hps.2 hqq.2 (by omega)

theorem bookList_pairwise {b : Book V} {ℓ : Nat} (hinv : bookInv ℓ b = true) :
    (bookList b).Pairwise (fun p q => sigLt ℓ p.1 q.1) := by
  suffices hmain : ∀ n (b : Book V), sizeOf b ≤ n → ∀ ℓ, bookInv ℓ b = true →
      (bookList b).Pairwise (fun p q => sigLt ℓ p.1 q.1) from
    hmain (sizeOf b) b le_rfl ℓ hinv
  intro n
  induction n with
  | zero =>
    intro b hb
    exfalso
    cases b with
    | mk pages e n0 =>
      simp only [Book.mk.sizeOf_spec] at hb
      omega
  | succ m ih =>
    intro b hb ℓ2 hinv2
    have hbl : bookList b = pagesList b.pages := by cases b; rfl
    rw [hbl]
    refine pagesPairwise b.pages 0 ?_ ?_
    · intro b2 hmem ℓ3 hinv3
      exact ih b2 (by have := sizeOf_book_lt hmem; omega) ℓ3 hinv3
    · intro m2 hm2
      have h36 := (bookInv_iff.1 hinv2).1
      have := bookInv_slot hinv2 (i := m2) (by omega)
      simpa using this

theorem keys_nodup {b : Book V} {ℓ : Nat} (hinv : bookInv ℓ b = true) :
    ((bookList b).map Prod.fst).Nodup := by
  have hpw := bookList_pairwise hinv
  have h2 : (bookList b).Pairwise (fun p q : Key × V => p.1 ≠ q.1) := by
    refine hpw.imp ?_
    intro p q h hfst
    rw [hfst] at h
    exact sigLt_irrefl ℓ q.1 h
  exact List.Pairwise.map Prod.fst (fun p q h => h) h2

theorem pairwise_mem_ext {α : Type} {r : α → α → Prop}
    (hasym : ∀ a b, r a b → r b a → False) :
    ∀ (l1 l2 : List α), l1.Pairwise r → l2.Pairwise r →
      (∀ x, x ∈ l1 ↔ x ∈ l2) → l1 = l2 := by
  intro l1
  induction l1 with
  | nil =>
    intro l2 _ _ hm
    cases l2 with
    | nil => rfl
    | cons y t => exact absurd ((hm y).2 (List.mem_cons_self y t)) (by simp)
  | cons x t ih =>
    intro l2 h1 h2 hm
    cases l2 with
    | nil => exact absurd ((hm x).1 (List.mem_cons_self x t)) (by simp)
    | cons y t2 =>
      have hirr : ∀ a, ¬r a a := fun a ha => hasym a a ha ha
      have hx : x ∈ y :: t2 := (hm x).1 (List.mem_cons_self x t)
      have hy : y ∈ x :: t := (hm y).2 (List.mem_cons_self y t2)
      have hxy : x = y := by
        rcases List.mem_cons.1 hx with h | hx2
        · exact h
        rcases List.mem_cons.1 hy with h | hy2
        · exact h.symm
        · exact ((hasym x y ((List.pairwise_cons.1 h1).1 y hy2)
            ((List.pairwise_cons.1 h2).1 x hx2))).elim
      subst hxy
      congr 1
      refine ih t2 (List.pairwise_cons.1 h1).2 (List.pairwise_cons.1 h2).2 ?_
      intro z
      constructor
      · intro hz
        rcases List.mem_cons.1 ((hm z).1 (List.mem_cons_of_mem x hz)) with h | h
        · subst h
          exact absurd ((List.pairwise_cons.1 h1).1 z hz) (hirr z)
        · exact h
      · intro hz
        rcases List.mem_cons.1 ((hm z).2 (List.mem_cons_of_mem x hz)) with h | h
        · subst h
          exact absurd ((List.pairwise_cons.1 h2).1 z hz) (hirr z)
        · exact h

theorem bookList_ext {b1 b2 : Book V} {ℓ : Nat} (h1 : bookInv ℓ b1 = true)
    (h2 : bookInv ℓ b2 = true)
    (hm : ∀ p, p ∈ bookList b1 ↔ p ∈ bookList b2) :
    bookList b1 = bookList b2 :=
  pairwise_mem_ext (fun p q hp hq => sigLt_asymm hp hq) _ _
    (bookList_pairwise h1) (bookList_pairwise h2) hm

/-! ## Fuel-indexed executable mirrors

The operations above are defined by well-founded recursion, mirroring the
source exactly, but well-founded definitions do not reduce inside the
kernel.  The following structurally recursive mirrors compute, and are
proved equal to the operations whenever the fuel is sufficient; they are
used only to evaluate concrete instances. -/

def getF : Nat → Book V → Nat → Key → Except Err V
  | 0, _, _, _ => .error .keyTooShort
  | fuel + 1, b, ℓ, k =>
    if ℓ < k.sig.length then
      match pageIndex (k.sig.getD ℓ ' ') with
      | none => .error .invalidSymbol
      | some idx =>
        match b.pages.getD idx .empty with
        | .empty => .error .notFound
        | .leaf k2 v2 => if k2 = k then .ok v2 else .error .notFound
        | .book child => getF fuel child (ℓ + 1) k
    else
      .error .keyTooShort

theorem getF_eq : ∀ (fuel : Nat) (b : Book V) (ℓ : Nat) (k : Key),
    k.sig.length - ℓ < fuel → getF fuel b ℓ k = get b ℓ k := by
  intro fuel
  induction fuel with
  | zero =>
    intro b ℓ k hf
    omega
  | succ m ih =>
    intro b ℓ k hf
    rw [get.eq_def]
    show (if ℓ < k.sig.length then _ else _) = _
    by_cases hℓ : ℓ < k.sig.length
    · rw [if_pos hℓ, dif_pos hℓ]
      cases hpi : pageIndex (k.sig.getD ℓ ' ') with
      | none => rfl
      | some idx =>
        cases hslot : b.pages.getD idx .empty with
        | empty => simp only [hslot]
        | leaf k2 v2 => simp only [hslot]
        | book child =>
          simp only [hslot]
          exact ih child (ℓ + 1) k (by omega)
    · rw [if_neg hℓ, dif_neg hℓ]

def setF [DecidableEq V] : Nat → Book V → Nat → Key → V → Book V × Option Err
  | 0, b, _, _, _ => (b, some .keyTooShort)
  | fuel + 1, b, ℓ, k, v =>
    if ℓ < k.sig.length then
      match pageIndex (k.sig.getD ℓ ' ') with
      | none => (b, some .invalidSymbol)
      | some idx =>
        match b.pages.getD idx .empty with
        | .empty =>
          (.mk (b.pages.set idx (.leaf k v)) b.errors (b.len + 1), none)
        | .leaf k2 v2 =>
          if k2 = k then
            if v2 = v then (b, none)
            else (.mk b.pages (b.errors + 1) b.len, none)
          else
            match insertFresh (ℓ + 1) k2 v2 with
            | .error e => (b, some e)
            | .ok nb1 =>
              match setF fuel nb1 (ℓ + 1) k v with
              | (_, some e) => (b, some e)
              | (nb2, none) =>
                (.mk (b.pages.set idx (.book nb2)) b.errors (b.len + 1), none)
        | .book child =>
          match setF fuel child (ℓ + 1) k v with
          | (child2, some e) =>
            (.mk (b.pages.set idx (.book child2)) b.errors b.len, some e)
          | (child2, none) =>
            (.mk (b.pages.set idx (.book child2)) b.errors
              (if child.len < child2.len then b.len + 1 else b.len), none)
    else
      (b, some .keyTooShort)

theorem setF_eq [DecidableEq V] : ∀ (fuel : Nat) (b : Book V) (ℓ : Nat)
    (k : Key) (v : V), k.sig.length - ℓ < fuel →
    setF fuel b ℓ k v = set b ℓ k v := by
  intro fuel
  induction fuel with
  | zero =>
    intro b ℓ k v hf
    omega
  | succ m ih =>
    intro b ℓ k v hf
    rw [set.eq_def]
    show (if ℓ < k.sig.length then _ else _) = _
    by_cases hℓ : ℓ < k.sig.length
    · rw [if_pos hℓ, dif_pos hℓ]
      cases hpi : pageIndex (k.sig.getD ℓ ' ') with
      | none => rfl
      | some idx =>
        cases hslot : b.pages.getD idx .empty with
        | empty => simp only [hslot]
        | leaf k2 v2 =>
          simp only [hslot]
          by_cases hk : k2 = k
          · rw [if_pos hk, if_pos hk]
          · rw [if_neg hk, if_neg hk]
            cases hfr : insertFresh (ℓ + 1) k2 v2 with
            | error e => rfl
            | ok nb1 =>
              have hihx := ih nb1 (ℓ + 1) k v (by omega)
              simp only [hihx]
        | book child =>
          simp only [hslot]
          rw [ih child (ℓ + 1) k v (by omega)]
    · rw [if_neg hℓ, dif_neg hℓ]

mutual
/-- Computable structural size, used as fuel bound for `collapseF`. -/
def slotSize : Slot V → Nat
  | .empty => 1
  | .leaf _ _ => 1
  | .book b => bookSize b + 1

/-- Computable structural size of a page list. -/
def pagesSize : List (Slot V) → Nat
  | [] => 1
  | s :: rest => slotSize s + pagesSize rest + 1

/-- Computable structural size of a book. -/
def bookSize : Book V → Nat
  | .mk pages _ _ => pagesSize pages + 1
end

theorem slotSize_le_pagesSize {s : Slot V} {l : List (Slot V)} (h : s ∈ l) :
    slotSize s ≤ pagesSize l := by
  induction l with
  | nil => cases h
  | cons a t ih =>
    rcases List.mem_cons.1 h with rfl | h2
    · show _ ≤ slotSize s + pagesSize t + 1
      omega
    · have := ih h2
      show _ ≤ slotSize a + pagesSize t + 1
      omega

theorem bookSize_book_lt {b b2 : Book V} (h : Slot.book b2 ∈ b.pages) :
    bookSize b2 < bookSize b := by
  have h1 : slotSize (Slot.book b2) ≤ pagesSize b.pages := slotSize_le_pagesSize h
  have h2 : slotSize (Slot.book b2) = bookSize b2 + 1 := rfl
  cases b with
  | mk pages e n =>
    show bookSize b2 < pagesSize pages + 1
    simp only [Book.pages] at h1
    omega

theorem bookSize_pos (b : Book V) : 1 ≤ bookSize b := by
  cases b with
  | mk pages e n =>
    show 1 ≤ pagesSize pages + 1
    omega

def collapseF : Nat → Book V → Option Nat → Except Err (Option (Key × V))
  | 0, _, _ => .error .internalFault
  | fuel + 1, b, ridx =>
    match ridx with
    | none => .error .internalFault
    | some i =>
      match b.pages.getD i .empty with
      | .empty => .ok none
      | .leaf k v => .ok (some (k, v))
      | .book b2 => collapseF fuel b2 (findRemaining b2)

theorem collapseF_eq : ∀ (fuel : Nat) (b : Book V) (ridx : Option Nat),
    bookSize b ≤ fuel → collapseF fuel b ridx = collapse b ridx := by
  intro fuel
  induction fuel with
  | zero =>
    intro b ridx hf
    exfalso
    have := bookSize_pos b
    omega
  | succ m ih =>
    intro b ridx hf
    cases ridx with
    | none =>
      rw [collapse.eq_def]
      rfl
    | some i =>
      cases hslot : b.pages.getD i .empty with
      | empty =>
        rw [collapse_step_empty hslot]
        show (match b.pages.getD i .empty with
          | Slot.empty => (Except.ok none : Except Err (Option (Key × V)))
          | Slot.leaf k v => Except.ok (some (k, v))
          | Slot.book b2 => collapseF m b2 (findRemaining b2)) = _
        rw [hslot]
      | leaf k v =>
        rw [collapse_step_leaf hslot]
        show (match b.pages.getD i .empty with
          | Slot.empty => (Except.ok none : Except Err (Option (Key × V)))
          | Slot.leaf k v => Except.ok (some (k, v))
          | Slot.book b2 => collapseF m b2 (findRemaining b2)) = _
        rw [hslot]
      | book b2 =>
        rw [collapse_step_book hslot]
        show (match b.pages.getD i .empty with
          | Slot.empty => (Except.ok none : Except Err (Option (Key × V)))
          | Slot.leaf k v => Except.ok (some (k, v))
          | Slot.book b2 => collapseF m b2 (findRemaining b2)) = _
        rw [hslot]
        have hsz : bookSize b2 < bookSize b :=
          bookSize_book_lt (hslot ▸ getD_mem (getD_content_lt_length hslot (by simp)))
        exact ih b2 (findRemaining b2) (by omega)

def deleteF : Nat → Book V → Nat → Key → Book V × Option Err
  | 0, b, _, _ => (b, some .keyTooShort)
  | fuel + 1, b, ℓ, k =>
    if ℓ < k.sig.length then
      match pageIndex (k.sig.getD ℓ ' ') with
      | none => (b, some .invalidSymbol)
      | some idx =>
        match b.pages.getD idx .empty with
        | .empty => (b, some .notFound)
        | .leaf k2 _ =>
          if k2 = k then
            (.mk (b.pages.set idx .empty) b.errors (b.len - 1), none)
          else
            (b, some .notFound)
        | .book child =>
          match deleteF fuel child (ℓ + 1) k with
          | (child2, some e) =>
            (.mk (b.pages.set idx (.book child2)) b.errors b.len, some e)
          | (child2, none) =>
            let newLen := if child2.len < child.len then b.len - 1 else b.len
            if child2.len = 0 then
              (.mk (b.pages.set idx .empty) b.errors newLen, none)
            else if child2.len = 1 then
              match collapseF (bookSize child2) child2 (findRemaining child2) with
              | .error e =>
                (.mk (b.pages.set idx (.book child2)) b.errors newLen, some e)
              | .ok none =>
                (.mk (b.pages.set idx .empty) b.errors newLen, none)
              | .ok (some (k0, v0)) =>
                (.mk (b.pages.set idx (.leaf k0 v0)) b.errors newLen, none)
            else
              (.mk (b.pages.set idx (.book child2)) b.errors newLen, none)
    else
      (b, some .keyTooShort)

theorem deleteF_eq : ∀ (fuel : Nat) (b : Book V) (ℓ : Nat) (k : Key),
    k.sig.length - ℓ < fuel → deleteF fuel b ℓ k = delete b ℓ k := by
  intro fuel
  induction fuel with
  | zero =>
    intro b ℓ k hf
    omega
  | succ m ih =>
    intro b ℓ k hf
    rw [delete.eq_def]
    show (if ℓ < k.sig.length then _ else _) = _
    by_cases hℓ : ℓ < k.sig.length
    · rw [if_pos hℓ, dif_pos hℓ]
      cases hpi : pageIndex (k.sig.getD ℓ ' ') with
      | none => rfl
      | some idx =>
        cases hslot : b.pages.getD idx .empty with
        | empty => simp only [hslot]
        | leaf k2 v2 => simp only [hslot]
        | book child =>
          simp only [hslot]
          rw [ih child (ℓ + 1) k (by omega)]
          cases hrec : delete child (ℓ + 1) k with
          | mk child2 r =>
            cases r with
            | some e => rfl
            | none =>
              simp only
              rw [collapseF_eq (bookSize child2) child2 (findRemaining child2) le_rfl]
    · rw [if_neg hℓ, dif_neg hℓ]

def applyOpF [DecidableEq V] (b : Book V) : Op V → Book V
  | .setOp k v => (setF (k.sig.length + 1) b 0 k v).1
  | .delOp k => (deleteF (k.sig.length + 1) b 0 k).1
  | .getOp _ => b

def runF [DecidableEq V] (ops : List (Op V)) : Book V :=
  ops.foldl applyOpF emptyBook

theorem applyOpF_eq [DecidableEq V] (b : Book V) (op : Op V) :
    applyOpF b op = applyOp b op := by
  cases op with
  | setOp k v =>
    show (setF (k.sig.length + 1) b 0 k v).1 = _
    rw [setF_eq (k.sig.length + 1) b 0 k v (by omega)]
    rfl
  | delOp k =>
    show (deleteF (k.sig.length + 1) b 0 k).1 = _
    rw [deleteF_eq (k.sig.length + 1) b 0 k (by omega)]
    rfl
  | getOp k => rfl

theorem run_eq_runF [DecidableEq V] (ops : List (Op V)) :
    run ops = runF ops := by
  suffices h : ∀ b : Book V, ops.foldl applyOp b = ops.foldl applyOpF b from
    h emptyBook
  induction ops with
  | nil => exact fun b => rfl
  | cons op rest ih =>
    intro b
    show rest.foldl applyOp (applyOp b op) = rest.foldl applyOpF (applyOpF b op)
    rw [applyOpF_eq, ih]

/-! ## A nested node is only created by a two-key collision -/

theorem set_branch_creation [DecidableEq V] {b b' : Book V} {r : Option Err}
    {ℓ : Nat} {k : Key} {v : V} {i : Nat} {nb : Book V}
    (h : set b ℓ k v = (b', r)) (hb : b'.pages.getD i .empty = .book nb) :
    (∃ ob, b.pages.getD i .empty = .book ob) ∨
      (∃ k2 v2, b.pages.getD i .empty = .leaf k2 v2 ∧ k2 ≠ k ∧
        pageIndex (k.sig.getD ℓ ' ') = some i) := by
  induction b, ℓ, k, v using set.induct generalizing b' r with
  | case1 b ℓ k v hℓ hpi =>
    rw [set.eq_def, dif_pos hℓ] at h
    simp only [hpi] at h
    cases h
    exact Or.inl ⟨nb, hb⟩
  | case2 b ℓ k v hℓ idx hpi hslot =>
    rw [set.eq_def, dif_pos hℓ] at h
    simp only [hpi, hslot] at h
    cases h
    by_cases hii : i = idx
    · subst hii
      by_cases hlen : i < b.pages.length
      · rw [show (Book.mk (b.pages.set i (Slot.leaf k v)) b.errors (b.len + 1)).pages
          = b.pages.set i (Slot.leaf k v) from rfl, getD_set_eq hlen] at hb
        cases hb
      · rw [show (Book.mk (b.pages.set i (Slot.leaf k v)) b.errors (b.len + 1)).pages
          = b.pages.set i (Slot.leaf k v) from rfl,
          List.set_eq_of_length_le (by omega)] at hb
        exact Or.inl ⟨nb, hb⟩
    · rw [show (Book.mk (b.pages.set idx (Slot.leaf k v)) b.errors (b.len + 1)).pages
        = b.pages.set idx (Slot.leaf k v) from rfl,
        getD_set_ne (fun hh => hii hh.symm)] at hb
      exact Or.inl ⟨nb, hb⟩
  | case3 b ℓ idx k v hslot hℓ hpi =>
    rw [set.eq_def, dif_pos hℓ] at h
    simp only [hpi, hslot, if_true] at h
    cases h
    exact Or.inl ⟨nb, hb⟩
  | case4 b ℓ v idx k v1 hslot hne hℓ hpi =>
    rw [set.eq_def, dif_pos hℓ] at h
    simp only [hpi, hslot, if_true, if_neg hne] at h
    cases h
    exact Or.inl ⟨nb, hb⟩
  | case5 b ℓ k v hℓ idx hpi k1 v1 hslot hne e0 hfresh =>
    rw [set.eq_def, dif_pos hℓ] at h
    simp only [hpi, hslot, if_neg hne, hfresh] at h
    cases h
    exact Or.inl ⟨nb, hb⟩
  | case6 b ℓ k v hℓ idx hpi k1 v1 hslot hne nb1 hfresh fst e0 hrec ih =>
    rw [set.eq_def, dif_pos hℓ] at h
    simp only [hpi, hslot, if_neg hne, hfresh, hrec] at h
    cases h
    exact Or.inl ⟨nb, hb⟩
  | case7 b ℓ k v hℓ idx hpi k1 v1 hslot hne nb1 hfresh nb2 hrec ih =>
    rw [set.eq_def, dif_pos hℓ] at h
    simp only [hpi, hslot, if_neg hne, hfresh, hrec] at h
    cases h
    by_cases hii : i = idx
    · subst hii
      exact Or.inr ⟨k1, v1, hslot, hne, hpi⟩
    · rw [show (Book.mk (b.pages.set idx (Slot.book nb2)) b.errors (b.len + 1)).pages
        = b.pages.set idx (Slot.book nb2) from rfl,
        getD_set_ne (fun hh => hii hh.symm)] at hb
      exact Or.inl ⟨nb, hb⟩
  | case8 b ℓ k v hℓ idx hpi child hslot fst e0 hrec ih =>
    rw [set.eq_def, dif_pos hℓ] at h
    simp only [hpi, hslot, hrec] at h
    cases h
    by_cases hii : i = idx
    · subst hii
      exact Or.inl ⟨child, hslot⟩
    · rw [show (Book.mk (b.pages.set idx (Slot.book fst)) b.errors b.len).pages
        = b.pages.set idx (Slot.book fst) from rfl,
        getD_set_ne (fun hh => hii hh.symm)] at hb
      exact Or.inl ⟨nb, hb⟩
  | case9 b ℓ k v hℓ idx hpi child hslot nb2 hrec ih =>
    rw [set.eq_def, dif_pos hℓ] at h
    simp only [hpi, hslot, hrec] at h
    cases h
    by_cases hii : i = idx
    · subst hii
      exact Or.inl ⟨child, hslot⟩
    · rw [show (Book.mk (b.pages.set idx (Slot.book nb2)) b.errors
          (if child.len < nb2.len then b.len + 1 else b.len)).pages
        = b.pages.set idx (Slot.book nb2) from rfl,
        getD_set_ne (fun hh => hii hh.symm)] at hb
      exact Or.inl ⟨nb, hb⟩
  | case10 b ℓ k v hℓ =>
    rw [set.eq_def, dif_neg hℓ] at h
    cases h
    exact Or.inl ⟨nb, hb⟩

theorem delete_branch_creation {b b' : Book V} {r : Option Err}
    {ℓ : Nat} {k : Key} {i : Nat} {nb : Book V}
    (h : delete b ℓ k = (b', r)) (hb : b'.pages.getD i .empty = .book nb) :
    ∃ ob, b.pages.getD i .empty = .book ob := by
  induction b, ℓ, k using delete.induct (V := V) generalizing b' r with
  | case1 b ℓ k hℓ hpi =>
    rw [delete.eq_def, dif_pos hℓ] at h
    simp only [hpi] at h
    cases h
    exact ⟨nb, hb⟩
  | case2 b ℓ k hℓ idx hpi hslot =>
    rw [delete.eq_def, dif_pos hℓ] at h
    simp only [hpi, hslot] at h
    cases h
    exact ⟨nb, hb⟩
  | case3 b ℓ idx k v hslot hℓ hpi =>
    rw [delete.eq_def, dif_pos hℓ] at h
    simp only [hpi, hslot, if_true] at h
    cases h
    by_cases hii : i = idx
    · subst hii
      by_cases hlen : i < b.pages.length
      · rw [show (Book.mk (b.pages.set i Slot.empty) b.errors (b.len - 1)).pages
          = b.pages.set i Slot.empty from rfl, getD_set_eq hlen] at hb
        cases hb
      · rw [show (Book.mk (b.pages.set i Slot.empty) b.errors (b.len - 1)).pages
          = b.pages.set i Slot.empty from rfl,
          List.set_eq_of_length_le (by omega)] at hb
        exact ⟨nb, hb⟩
    · rw [show (Book.mk (b.pages.set idx Slot.empty) b.errors (b.len - 1)).pages
        = b.pages.set idx Slot.empty from rfl,
        getD_set_ne (fun hh => hii hh.symm)] at hb
      exact ⟨nb, hb⟩
  | case4 b ℓ k hℓ idx hpi k1 v hslot hne =>
    rw [delete.eq_def, dif_pos hℓ] at h
    simp only [hpi, hslot, if_neg hne] at h
    cases h
    exact ⟨nb, hb⟩
  | case5 b ℓ k hℓ idx hpi child hslot fst e0 hrec ih =>
    rw [delete.eq_def, dif_pos hℓ] at h
    simp only [hpi, hslot, hrec] at h
    cases h
    by_cases hii : i = idx
    · subst hii
      exact ⟨child, hslot⟩
    · rw [show (Book.mk (b.pages.set idx (Slot.book fst)) b.errors b.len).pages
        = b.pages.set idx (Slot.book fst) from rfl,
        getD_set_ne (fun hh => hii hh.symm)] at hb
      exact ⟨nb, hb⟩
  | case6 b ℓ k hℓ idx hpi child hslot nb2 hrec hlen0 ih =>
    rw [delete.eq_def, dif_pos hℓ] at h
    simp only [hpi, hslot, hrec, if_pos hlen0] at h
    cases h
    by_cases hii : i = idx
    · subst hii
      exact ⟨child, hslot⟩
    · rw [show (Book.mk (b.pages.set idx Slot.empty) b.errors
          (if nb2.len < child.len then b.len - 1 else b.len)).pages
        = b.pages.set idx Slot.empty from rfl,
        getD_set_ne (fun hh => hii hh.symm)] at hb
      exact ⟨nb, hb⟩
  | case7 b ℓ k hℓ idx hpi child hslot nb2 hrec hne0 hlen1 e0 hcol ih =>
    rw [delete.eq_def, dif_pos hℓ] at h
    simp only [hpi, hslot, hrec, if_neg hne0, if_pos hlen1, hcol] at h
    cases h
    by_cases hii : i = idx
    · subst hii
      exact ⟨child, hslot⟩
    · rw [show (Book.mk (b.pages.set idx (Slot.book nb2)) b.errors
          (if nb2.len < child.len then b.len - 1 else b.len)).pages
        = b.pages.set idx (Slot.book nb2) from rfl,
        getD_set_ne (fun hh => hii hh.symm)] at hb
      exact ⟨nb, hb⟩
  | case8 b ℓ k hℓ idx hpi child hslot nb2 hrec hne0 hlen1 hcol ih =>
    rw [delete.eq_def, dif_pos hℓ] at h
    simp only [hpi, hslot, hrec, if_neg hne0, if_pos hlen1, hcol] at h
    cases h
    by_cases hii : i = idx
    · subst hii
      exact ⟨child, hslot⟩
    · rw [show (Book.mk (b.pages.set idx Slot.empty) b.errors
          (if nb2.len < child.len then b.len - 1 else b.len)).pages
        = b.pages.set idx Slot.empty from rfl,
        getD_set_ne (fun hh => hii hh.symm)] at hb
      exact ⟨nb, hb⟩
  | case9 b ℓ k hℓ idx hpi child hslot nb2 hrec hne0 hlen1 k0 v0 hcol ih =>
    rw [delete.eq_def, dif_pos hℓ] at h
    simp only [hpi, hslot, hrec, if_neg hne0, if_pos hlen1, hcol] at h
    cases h
    by_cases hii : i = idx
    · subst hii
      exact ⟨child, hslot⟩
    · rw [show (Book.mk (b.pages.set idx (Slot.leaf k0 v0)) b.errors
          (if nb2.len < child.len then b.len - 1 else b.len)).pages
        = b.pages.set idx (Slot.leaf k0 v0) from rfl,
        getD_set_ne (fun hh => hii hh.symm)] at hb
      exact ⟨nb, hb⟩
  | case10 b ℓ k hℓ idx hpi child hslot nb2 hrec hne0 hne1 ih =>
    rw [delete.eq_def, dif_pos hℓ] at h
    simp only [hpi, hslot, hrec, if_neg hne0, if_neg hne1] at h
    cases h
    by_cases hii : i = idx
    · subst hii
      exact ⟨child, hslot⟩
    · rw [show (Book.mk (b.pages.set idx (Slot.book nb2)) b.errors
          (if nb2.len < child.len then b.len - 1 else b.len)).pages
        = b.pages.set idx (Slot.book nb2) from rfl,
        getD_set_ne (fun hh => hii hh.symm)] at hb
      exact ⟨nb, hb⟩
  | case11 b ℓ k hℓ =>
    rw [delete.eq_def, dif_neg hℓ] at h
    cases h
    exact ⟨nb, hb⟩

/-! ## Concrete witness data

Small literal books over `V := Int`, written as explicit page arrays so
that every predicate on them evaluates inside the kernel. -/

def wKab : Key := ⟨0, ['a', 'b']⟩

def wKac : Key := ⟨0, ['a', 'c']⟩

def wKa : Key := ⟨0, ['a']⟩

/-- A book holding only `("ab", 1)` as a root leaf. -/
def wLeafAB : Book Int :=
  .mk ((List.replicate 36 .empty).set 0 (.leaf wKab 1)) 0 1

/-- A book holding only `("a", 7)` as a root leaf. -/
def wLeafA : Book Int :=
  .mk ((List.replicate 36 .empty).set 0 (.leaf wKa 7)) 0 1

/-- The level-1 child holding `("ab", 1)` and `("ac", 2)`. -/
def wChild : Book Int :=
  .mk (((List.replicate 36 .empty).set 1 (.leaf wKab 1)).set 2 (.leaf wKac 2)) 0 2

/-- A book holding `("ab", 1)` and `("ac", 2)` behind a branch at slot 0. -/
def wBook2 : Book Int :=
  .mk ((List.replicate 36 .empty).set 0 (.book wChild)) 0 2

/-- `wChild` after deleting `("ac", 2)`. -/
def wChildDel : Book Int :=
  .mk (((List.replicate 36 .empty).set 1 (.leaf wKab 1)).set 2 .empty) 0 1

/-! ## The claims -/

/-- C1: for every key `k` already stored with value `v1`, calling
`set(k, v2)` with `v2 ≠ v1` raises no error to the caller, leaves the
stored value unchanged so that `get(k)` still returns `v1`, leaves
`entry_count()` unchanged, and increases the conflict counter of exactly
the node whose leaf holds `k` by exactly 1 — the call's result is exactly
`conflictBumpSpec`, which bumps that one counter and changes nothing
else. -/
theorem claim_C1 [DecidableEq V] {b : Book V} {ℓ : Nat} {k : Key}
    {v1 v2 : V} (hstored : get b ℓ k = .ok v1) (hne : v1 ≠ v2) :
    set b ℓ k v2 = (conflictBumpSpec b ℓ k, none) ∧
      get (conflictBumpSpec b ℓ k) ℓ k = .ok v1 ∧
      (conflictBumpSpec b ℓ k).len = b.len ∧
      bookList (conflictBumpSpec b ℓ k) = bookList b :=
  ⟨set_conflict hstored hne,
   by rw [get_conflictBump b ℓ k k]; exact hstored,
   conflictBump_len b ℓ k,
   conflictBump_bookList b ℓ k⟩

/-- Witness for C1 at a concrete conflicting re-insert. -/
theorem claim_C1_witness :
    set wLeafAB 0 wKab (2 : Int) = (conflictBumpSpec wLeafAB 0 wKab, none) ∧
      get (conflictBumpSpec wLeafAB 0 wKab) 0 wKab = .ok 1 ∧
      (conflictBumpSpec wLeafAB 0 wKab).len = wLeafAB.len ∧
      bookList (conflictBumpSpec wLeafAB 0 wKab) = bookList wLeafAB :=
  claim_C1 (by rw [← getF_eq 3 wLeafAB 0 wKab (by decide)]; rfl) (by decide)

/-- C2: when a delete inside a branch child succeeds, (a) the collapse
routine, run on any book holding exactly one reachable pair and free of
empty branches, returns exactly that pair as a Leaf — never a Branch —
flattening through any chain of singleton branches; (b) if the child is
left with exactly one surviving entry, the parent slot is replaced by
that single surviving Leaf directly; (c) if the child is left with a zero
entry count, the parent slot becomes Empty. -/
theorem claim_C2 {b child child2 : Book V} {ℓ idx : Nat} {k : Key}
    (hℓ : ℓ < k.sig.length)
    (hpi : pageIndex (k.sig.getD ℓ ' ') = some idx)
    (hslot : b.pages.getD idx .empty = .book child)
    (hrec : delete child (ℓ + 1) k = (child2, none)) :
    (∀ (c : Book V) (k0 : Key) (v0 : V), noDeadBranch c = true →
      bookList c = [(k0, v0)] →
      collapse c (findRemaining c) = .ok (some (k0, v0))) ∧
    (bookInv ℓ b = true → ∀ k0 v0, bookList child2 = [(k0, v0)] →
      (delete b ℓ k).2 = none ∧
        (delete b ℓ k).1.pages.getD idx .empty = .leaf k0 v0) ∧
    (child2.len = 0 →
      (delete b ℓ k).2 = none ∧
        (delete b ℓ k).1.pages.getD idx .empty = .empty) := by
  have hidx : idx < b.pages.length := getD_content_lt_length hslot (by simp)
  refine ⟨fun c k0 v0 hnd hl => collapse_singleton hnd hl, ?_, ?_⟩
  · intro hinv k0 v0 hl1
    have hold := bookInv_slot hinv (pageIndex_lt_36 hpi)
    rw [hslot] at hold
    have hinvc := (slotInv_book_iff.1 hold).1
    have hinv2 := ((delete_spec hinvc).2 child2 hrec).1
    have hcnt2 : child2.len = ((bookList child2).length : Int) :=
      (bookInv_iff.1 hinv2).2.1
    rw [hl1] at hcnt2
    have hne0 : ¬child2.len = 0 := by
      simp only [List.length_cons, List.length_nil] at hcnt2
      omega
    have hlen1 : child2.len = 1 := by
      simp only [List.length_cons, List.length_nil] at hcnt2
      omega
    have hcol := collapse_singleton (noDeadBranch_of_inv hinv2) hl1
    rw [delete.eq_def, dif_pos hℓ]
    simp only [hpi, hslot, hrec, if_neg hne0, if_pos hlen1, hcol]
    refine ⟨by trivial, ?_⟩
    show (b.pages.set idx (Slot.leaf k0 v0)).getD idx .empty = _
    rw [getD_set_eq hidx]
  · intro h0
    rw [delete.eq_def, dif_pos hℓ]
    simp only [hpi, hslot, hrec, if_pos h0]
    refine ⟨by trivial, ?_⟩
    show (b.pages.set idx Slot.empty).getD idx .empty = _
    rw [getD_set_eq hidx]

/-- Witness for C2: deleting `"ac"` under the branch of `wBook2` leaves a
single survivor, and the parent slot becomes the surviving leaf. -/
theorem claim_C2_witness :
    (delete wBook2 0 wKac).2 = none ∧
      (delete wBook2 0 wKac).1.pages.getD 0 .empty = .leaf wKab (1 : Int) :=
  (@claim_C2 Int wBook2 wChild wChildDel 0 0 wKac (by decide) (by decide) rfl
    (by rw [← deleteF_eq 2 wChild 1 wKac (by decide)]; rfl)).2.1
    (by decide) wKab 1 (by decide)

/-- C3: starting from an empty container, after any sequence of set, get
and delete operations no reachable nested node holds exactly 0 or 1
reachable entries (canonical form); moreover a slot only ever turns into
a nested node when a `set` finds a leaf with a different key at the slot
addressed by the inserted key (a two-key collision), and `delete` never
creates a nested node. -/
theorem claim_C3 (V : Type) [DecidableEq V] :
    (∀ ops : List (Op V), canonical (run ops) = true) ∧
    (∀ (b b' : Book V) (r : Option Err) (ℓ : Nat) (k : Key) (v : V)
        (i : Nat) (nb : Book V),
      set b ℓ k v = (b', r) → b'.pages.getD i .empty = .book nb →
      (∃ ob, b.pages.getD i .empty = .book ob) ∨
        (∃ k2 v2, b.pages.getD i .empty = .leaf k2 v2 ∧ k2 ≠ k ∧
          pageIndex (k.sig.getD ℓ ' ') = some i)) ∧
    (∀ (b b' : Book V) (r : Option Err) (ℓ : Nat) (k : Key)
        (i : Nat) (nb : Book V),
      delete b ℓ k = (b', r) → b'.pages.getD i .empty = .book nb →
      ∃ ob, b.pages.getD i .empty = .book ob) :=
  ⟨fun ops => canonical_of_inv (run_inv ops),
   fun _ _ _ _ _ _ _ _ h hb => set_branch_creation h hb,
   fun _ _ _ _ _ _ _ h hb => delete_branch_creation h hb⟩

/-- Witness for C3 at concrete runs: an empty run is canonical, a
collision turns a leaf slot into a branch, and a delete never does. -/
theorem claim_C3_witness :
    canonical (run (V := Int) []) = true ∧
      ((∃ ob, wLeafAB.pages.getD 0 .empty = .book ob) ∨
        (∃ k2 v2, wLeafAB.pages.getD 0 .empty = .leaf k2 v2 ∧ k2 ≠ wKac ∧
          pageIndex (wKac.sig.getD 0 ' ') = some 0)) ∧
      (∃ ob, wBook2.pages.getD 0 .empty = .book ob) :=
  ⟨(claim_C3 Int).1 [],
   (claim_C3 Int).2.1 wLeafAB wBook2 none 0 wKac 2 0 wChild
     (by rw [← setF_eq 3 wLeafAB 0 wKac 2 (by decide)]; rfl) rfl,
   (claim_C3 Int).2.2 wBook2 wBook2 (some .keyTooShort) 0 wKa 0 wChild
     (by rw [← deleteF_eq 2 wBook2 0 wKa (by decide)]; rfl) rfl⟩

/-- C4: after any operation sequence, the traversal yields exactly
`entry_count()` pairs, each stored key exactly once, strictly ordered by
the alphabet position of signature characters at each level; and for the
same set of stored entries the sequence is identical regardless of the
order in which the keys were inserted. -/
theorem claim_C4 [DecidableEq V] (ops : List (Op V)) :
    ((bookList (run ops)).length : Int) = (run ops).len ∧
      ((bookList (run ops)).map Prod.fst).Nodup ∧
      (bookList (run ops)).Pairwise (fun p q => sigLt 0 p.1 q.1) ∧
      (∀ ops2 : List (Op V),
        (∀ p, p ∈ bookList (run ops2) ↔ p ∈ bookList (run ops)) →
        bookList (run ops2) = bookList (run ops)) := by
  have hinv := run_inv ops
  refine ⟨((bookInv_iff.1 hinv).2.1).symm, keys_nodup hinv,
    bookList_pairwise hinv, ?_⟩
  intro ops2 hm
  exact bookList_ext (run_inv ops2) hinv hm

/-- Witness for C4: two insertion orders of the same pairs produce the
same traversal. -/
theorem claim_C4_witness :
    bookList (run (V := Int) [.setOp wKac 2, .setOp wKab 1]) =
      bookList (run (V := Int) [.setOp wKab 1, .setOp wKac 2]) :=
  (claim_C4 [.setOp wKab 1, .setOp wKac 2]).2.2.2 [.setOp wKac 2, .setOp wKab 1]
    (by
      have he : run (V := Int) [.setOp wKac 2, .setOp wKab 1] =
          run (V := Int) [.setOp wKab 1, .setOp wKac 2] := by
        rw [run_eq_runF, run_eq_runF]
        rfl
      rw [he]
      exact fun p => Iff.rfl)

/-- C5: on a well-formed book, `get` returns `ok v` exactly for the pairs
`(k, v)` stored in the structure; for an absent key it fails, and the
error is `NotFound` precisely when navigation ends at an empty slot or at
a leaf holding a different key — with `KeyTooShort` precisely when
navigation exhausts the signature at a probed node, and `InvalidSymbol`
precisely when it probes a character outside the alphabet. -/
theorem claim_C5 {b : Book V} {ℓ : Nat} {k : Key}
    (hinv : bookInv ℓ b = true) :
    (∀ v, get b ℓ k = .ok v ↔ (k, v) ∈ bookList b) ∧
      ((∀ v, (k, v) ∉ bookList b) →
        ∃ e, get b ℓ k = .error e ∧
          (e = .notFound ∨ e = .keyTooShort ∨ e = .invalidSymbol) ∧
          (e = .notFound ↔ reachesEmptyOrMismatch b ℓ k) ∧
          (e = .keyTooShort ↔ reachesExhausted b ℓ k) ∧
          (e = .invalidSymbol ↔ reachesIllegal b ℓ k)) := by
  refine ⟨fun _ => get_ok_iff hinv, fun habs => ?_⟩
  obtain ⟨e, hg, hdisj⟩ := get_absent hinv habs
  obtain ⟨h1, h2, h3⟩ := get_err_classify b ℓ k
  have herr : ∀ e0 : Err, (e = e0) ↔ get b ℓ k = .error e0 := by
    intro e0
    rw [hg]
    constructor
    · intro h
      rw [h]
    · intro h
      exact Except.error.inj h
  exact ⟨e, hg, hdisj, (herr Err.notFound).trans h3,
    (herr Err.keyTooShort).trans h1, (herr Err.invalidSymbol).trans h2⟩

/-- Witness for C5: a stored pair is returned by `get`, and the absent key
`"ac"` fails with an error equal to `NotFound` exactly because navigation
ends at a leaf holding the different key `"ab"`. -/
theorem claim_C5_witness :
    get wLeafAB 0 wKab = .ok (1 : Int) ∧
      ∃ e, get wLeafAB 0 wKac = .error e ∧
        (e = .notFound ∨ e = .keyTooShort ∨ e = .invalidSymbol) ∧
        (e = .notFound ↔ reachesEmptyOrMismatch wLeafAB 0 wKac) ∧
        (e = .keyTooShort ↔ reachesExhausted wLeafAB 0 wKac) ∧
        (e = .invalidSymbol ↔ reachesIllegal wLeafAB 0 wKac) :=
  ⟨((claim_C5 (k := wKab) (by decide)).1 1).2 (by decide),
   (claim_C5 (k := wKac) (by decide)).2 (fun v hv => by
      rw [show bookList wLeafAB = [(wKab, (1 : Int))] from rfl] at hv
      simp only [List.mem_singleton, Prod.mk.injEq] at hv
      exact absurd hv.1 (by decide))⟩

/-- C6 (amended): deleting a present key decreases `entry_count()` by
exactly 1; deleting an absent key changes nothing — the book returned is
the very same — and fails with `NotFound` precisely when navigation ends
at an empty slot or at a leaf holding a different key, with `KeyTooShort`
precisely when navigation exhausts the signature at a probed node, and
with `InvalidSymbol` precisely when it probes a character outside the
alphabet. -/
theorem claim_C6 {b : Book V} {ℓ : Nat} {k : Key}
    (hinv : bookInv ℓ b = true) :
    (∀ v0, (k, v0) ∈ bookList b →
      ∃ b', delete b ℓ k = (b', none) ∧ b'.len = b.len - 1) ∧
    (k ∉ (bookList b).map Prod.fst →
      ∃ e, delete b ℓ k = (b, some e) ∧
        (e = .notFound ∨ e = .keyTooShort ∨ e = .invalidSymbol) ∧
        (e = .notFound ↔ reachesEmptyOrMismatch b ℓ k) ∧
        (e = .keyTooShort ↔ reachesExhausted b ℓ k) ∧
        (e = .invalidSymbol ↔ reachesIllegal b ℓ k)) := by
  constructor
  · intro v0 hmem
    rcases hd : delete b ℓ k with ⟨b', r⟩
    cases r with
    | none =>
      obtain ⟨-, -, hlen, -⟩ := (delete_spec hinv).2 b' hd
      exact ⟨b', rfl, hlen⟩
    | some e =>
      obtain ⟨-, -, habs⟩ := (delete_spec hinv).1 b' e hd
      exact absurd hmem (habs v0)
  · intro habs
    rcases hd : delete b ℓ k with ⟨b', r⟩
    cases r with
    | none =>
      obtain ⟨-, ⟨v0, hv0⟩, -, -⟩ := (delete_spec hinv).2 b' hd
      exact absurd (List.mem_map.2 ⟨(k, v0), hv0, rfl⟩) habs
    | some e =>
      obtain ⟨hb, he, -⟩ := (delete_spec hinv).1 b' e hd
      have hg : get b ℓ k = .error e := delete_err_get hinv b' e hd
      obtain ⟨h1, h2, h3⟩ := get_err_classify b ℓ k
      have herr : ∀ e0 : Err, (e = e0) ↔ get b ℓ k = .error e0 := by
        intro e0
        rw [hg]
        constructor
        · intro h
          rw [h]
        · intro h
          exact Except.error.inj h
      exact ⟨e, by rw [hb], he, (herr Err.notFound).trans h3,
        (herr Err.keyTooShort).trans h1, (herr Err.invalidSymbol).trans h2⟩


/-- Counterexample to C6 as stated: the key `"a"` is absent from the book
holding `"ab"` and `"ac"`, yet deleting it fails with `KeyTooShort` —
not `NotFound` — because navigation exhausts the one-character signature
at the depth-1 node (it does leave the book unchanged). -/
theorem claim_C6_counterexample :
    wKa ∉ (bookList wBook2).map Prod.fst ∧
      delete wBook2 0 wKa = (wBook2, some .keyTooShort) ∧
      Err.keyTooShort ≠ Err.notFound := by
  refine ⟨by decide, ?_, by decide⟩
  rw [← deleteF_eq 2 wBook2 0 wKa (by decide)]
  rfl

/-- Witness for C6: a present key is deleted with the count decreasing by
one, and the absent key `"a"` fails leaving the book untouched, its error
equal to `KeyTooShort` exactly because navigation exhausts the signature
at the probed depth-1 node. -/
theorem claim_C6_witness :
    (∃ b', delete wBook2 0 wKac = (b', none) ∧ b'.len = wBook2.len - 1) ∧
      (∃ e, delete wBook2 0 wKa = (wBook2, some e) ∧
        (e = .notFound ∨ e = .keyTooShort ∨ e = .invalidSymbol) ∧
        (e = .notFound ↔ reachesEmptyOrMismatch wBook2 0 wKa) ∧
        (e = .keyTooShort ↔ reachesExhausted wBook2 0 wKa) ∧
        (e = .invalidSymbol ↔ reachesIllegal wBook2 0 wKa)) :=
  ⟨(claim_C6 (k := wKac) (by decide)).1 2 (by decide),
   (claim_C6 (k := wKa) (by decide)).2 (by decide)⟩

/-- C7: re-inserting a pair `(k, v)` that is already stored is a no-op —
the call returns without error and the entire structure, hence
`entry_count()`, `conflict_count()` and every `get`, is unchanged. -/
theorem claim_C7 [DecidableEq V] {b : Book V} {ℓ : Nat} {k : Key} {v : V}
    (hstored : get b ℓ k = .ok v) : set b ℓ k v = (b, none) :=
  set_stored_noop hstored

/-- Witness for C7 at a concrete stored pair. -/
theorem claim_C7_witness : set wLeafAB 0 wKab (1 : Int) = (wLeafAB, none) :=
  claim_C7 (by rw [← getF_eq 3 wLeafAB 0 wKab (by decide)]; rfl)

/-- C8: every operation invoked at a node of depth `d` on a key whose
signature length is not greater than `d` fails immediately with
`KeyTooShort`, returning the structure unchanged. -/
theorem claim_C8 [DecidableEq V] (b : Book V) (ℓ : Nat) (k : Key) (v : V)
    (h : k.sig.length ≤ ℓ) :
    set b ℓ k v = (b, some .keyTooShort) ∧
      get b ℓ k = .error .keyTooShort ∧
      delete b ℓ k = (b, some .keyTooShort) :=
  ⟨set_keyTooShort v h, get_keyTooShort h, delete_keyTooShort h⟩

/-- Witness for C8 at a depth-1 node and a one-character key. -/
theorem claim_C8_witness :
    set wChild 1 wKa (9 : Int) = (wChild, some .keyTooShort) ∧
      get wChild 1 wKa = .error .keyTooShort ∧
      delete wChild 1 wKa = (wChild, some .keyTooShort) :=
  claim_C8 wChild 1 wKa 9 (by decide)

/-- C9: after any sequence of operations from the empty container, every
reachable node's stored entry counter equals the number of leaf pairs
reachable under that node, and the root entry count is non-negative. -/
theorem claim_C9 [DecidableEq V] (ops : List (Op V)) :
    countersOK (run ops) = true ∧ 0 ≤ (run ops).len := by
  have hinv := run_inv ops
  refine ⟨countersOK_of_inv hinv, ?_⟩
  have h := (bookInv_iff.1 hinv).2.1
  omega

/-- C10: whenever a `set` call fails, the structure it returns is exactly
the input structure — no slot, entry counter, or conflict counter changed
— and the failure is a `KeyTooShort` or `InvalidSymbol` precondition
violation (this covers failures arising while re-distributing two
colliding keys into a freshly created child node, which is linked into
the parent slot only after both recursive inserts succeed). -/
theorem claim_C10 [DecidableEq V] {b b' : Book V} {ℓ : Nat} {k : Key}
    {v : V} {e : Err} (h : set b ℓ k v = (b', some e)) :
    b' = b ∧ (e = .keyTooShort ∨ e = .invalidSymbol) :=
  set_error_eq h

/-- Witness for C10: inserting `"ab"` over the leaf `"a"` triggers a
redistribution whose first recursive insert fails with `KeyTooShort`, and
the book is returned unchanged. -/
theorem claim_C10_witness :
    wLeafA = wLeafA ∧
      (Err.keyTooShort = .keyTooShort ∨ Err.keyTooShort = .invalidSymbol) :=
  @claim_C10 Int _ wLeafA wLeafA 0 wKab 8 Err.keyTooShort
    (by rw [← setF_eq 3 wLeafA 0 wKab 8 (by decide)]; rfl)

end ProcessingBook
